import Mathlib

/-!
Verification of the cascade incremental elaboration engine
(`src/verilog/program/program.cc`) against its specification.

The development shallowly embeds `Program`: the two versioned tables
(declarations and elaborated instances), the worklist engine
(`Program::elaborate`), the incremental drivers (`eval_root`, `eval_item`,
`declare`, `declare_and_instantiate`) and the inline/outline hierarchy
transformer.  External collaborators (the semantic checker, the `Elaborate`
specializer, `Resolve`, `Navigate`, `ModuleInfo`, the versioned-table class
and the `Inline` pass) are not part of the shown source; they are modelled
from the spec, with per-node oracle verdicts standing for checker outcomes.

All recursive functions take an explicit fuel argument and are structurally
recursive on it, so every run of the model reduces definitionally; the
wrappers supply fuel computed from the worklist sizes, and the drain theorem
shows this fuel is never exhausted on error-free runs.
-/

set_option maxHeartbeats 1000000

namespace Cascade

/-- A hierarchical or simple identifier: its name-path.  Identifiers compare
by structural identity of the path, not by node address. -/
abbrev Path := List String

/-- Generate-construct kinds, mirroring the three dynamic casts in the
generate pass of `Program::elaborate` (case / if / loop). -/
inductive GKind where
  | caseGen
  | ifGen
  | loopGen
deriving DecidableEq, Repr

/-- Data carried by a `ModuleInstantiation` node as the engine observes it:
the referenced module-type identifier (`get_mid`), the instance name
(`get_iid`), whether its attribute set is empty (`get_attrs()->get_as()->empty()`),
and the oracle verdict of the semantic checker's `pre_elaboration_check`
on this node (the checker is an external collaborator). -/
structure InstData where
  mid : Path
  iid : String
  attrsEmpty : Bool
  ok : Bool
deriving DecidableEq, Repr

/-- Data carried by a generate construct: its kind, a tag naming the node in
traces, and the checker's `pre_elaboration_check` verdict for it. -/
structure GenData where
  kind : GKind
  tag : String
  ok : Bool
deriving DecidableEq, Repr

mutual
/-- A finite, acyclic instantiation/generate nesting as the worklist engine
sees it.  A node's list holds exactly the instantiations and generate
constructs discovered (in traversal order) when the node is expanded:
for an instantiation, the top-level constructs of its specialized body
(`Elaborate(this).elaborate(mi)->accept(this)`); for a generate construct,
the top-level constructs of its expanded branch. -/
inductive WTree where
  | inst : InstData → WList → WTree
  | gen : GenData → WList → WTree
deriving DecidableEq, Repr

/-- A list of `WTree` nodes, kept mutual with `WTree` so that all functions
over the nesting are structurally recursive. -/
inductive WList where
  | nil : WList
  | cons : WTree → WList → WList
deriving DecidableEq, Repr
end

mutual
/-- Size of a worklist tree (used to compute sufficient fuel). -/
def wsize : WTree → Nat
  | .inst _ cs => 1 + wsizeL cs
  | .gen _ cs => 1 + wsizeL cs

/-- Total size of a list of worklist trees. -/
def wsizeL : WList → Nat
  | .nil => 0
  | .cons t ts => wsize t + wsizeL ts
end

/-- A module item handed to `Program::eval`: either a module instantiation
(with its worklist subtree and the checker's `post_elaboration_check`
verdict) or some other declaration-like item whose traversal discovers the
given constructs. -/
inductive ModuleItem where
  | minst : InstData → WList → Bool → ModuleItem
  | mother : WList → Bool → ModuleItem
deriving DecidableEq, Repr

/-- Error diagnostics recorded through the `Loggable` interface.  Presence of
any entry marks the attempt failed (warnings are not modelled: they never
flip `error()`). -/
inductive Err where
  | duplicateDecl
  | missingRoot
  | semantic
deriving DecidableEq, Repr

/-- Invalidation notifications sent to the external `Resolve`, `Navigate` and
`ModuleInfo` collaborators; recorded as events. -/
inductive InvEv where
  | resolveItem
  | navScope
  | modInfoAll
deriving DecidableEq, Repr

/-- An elaborated instance as stored in the elaborated-instance table: the
second `Elaborate().elaborate(mi)` result.  `attrsOwn` records whether its
attributes came from the instantiation itself (`true`) or were propagated
from the root instantiation (`false`); `items` is its item list. -/
structure EV where
  attrsOwn : Bool
  items : List ModuleItem
deriving DecidableEq, Repr

/-- A module declaration (template) as `Program::declare` receives it:
its module-type identifier, attribute-set emptiness, the worklist constructs
discovered by traversing its body, and the checker's
`post_elaboration_check` verdict. -/
structure ModuleDeclaration where
  id : Path
  attrsEmpty : Bool
  body : WList
  postOk : Bool
deriving DecidableEq, Repr

/-- The observable state of a `Program`.

Modelled from the spec: the versioned table buffers all inserts between a
`checkpoint` and the matching `commit`/`undo` as a single pending batch
(`elabsP`); `undo` removes exactly that batch, `commit` makes it permanent
(appending to `elabsC`).  `decls` needs no pending field because `declare`
checkpoints and commits around the single insert.  `freed` counts input
AST nodes destroyed (`delete md`, `delete mi`, and the purge of a reverted
item); `invs` records invalidations sent to external collaborators; `ub`
is set (and stays set) when the source would dereference a null pointer or
an end iterator. -/
structure PState where
  decls : List (Path × ModuleDeclaration)
  elabsC : List (Path × EV)
  elabsP : List (Path × EV)
  rootDitr : Option Path
  rootEitr : Option Path
  rootInst : Option InstData
  logs : List Err
  freed : Nat
  invs : List InvEv
  ub : Bool
deriving DecidableEq, Repr

/-- The `error()` query of the `Loggable` interface. -/
def PState.err (st : PState) : Bool := !st.logs.isEmpty

/-- The four mode flags configured before each call to `Program::elaborate`
(`warn_unresolved_`, `local_only_`, `expand_insts_`, `expand_gens_`). -/
structure Mode where
  warnUnresolved : Bool
  localOnly : Bool
  expandInsts : Bool
  expandGens : Bool
deriving DecidableEq, Repr

/-- The mode `Program::declare` sets: static, non-expanding. -/
def declMode : Mode := ⟨true, true, false, false⟩

/-- The mode `Program::elaborate_item` sets: full expansion. -/
def itemMode : Mode := ⟨false, false, true, true⟩

/-- An instantiation worklist entry: the full hierarchical path of the
enclosing scope, the node data, and the node's subtree. -/
abbrev QI := Path × InstData × WList

/-- A generate-construct worklist entry. -/
abbrev QG := Path × GenData × WList

/-- Events recorded by the engine: the pre-elaboration check of an
instantiation (keyed by its full hierarchical identifier) or of a generate
construct (keyed by its tag). -/
inductive Ev where
  | i : Path → Ev
  | g : String → Ev
deriving DecidableEq, Repr

/-- Whether an event belongs to the instantiation worklist. -/
def Ev.isI : Ev → Bool
  | .i _ => true
  | .g _ => false

/-- Traversal (`n->accept(this)` driving the `edit` visitor callbacks):
appends every top-level instantiation to the instantiation worklist and
every top-level generate construct to the generate worklist, in traversal
order.  The `edit` overrides do not recurse into the queued nodes. -/
def routeTrees (ctx : Path) : WList → List QI × List QG
  | .nil => ([], [])
  | .cons (.inst d cs) ts =>
      let r := routeTrees ctx ts
      ((ctx, d, cs) :: r.1, r.2)
  | .cons (.gen gd cs) ts =>
      let r := routeTrees ctx ts
      (r.1, (ctx, gd, cs) :: r.2)

/-- Entry size of an instantiation worklist entry. -/
def qsizeE (e : QI) : Nat := 1 + wsizeL e.2.2

/-- Total size of the instantiation worklist. -/
def qsize (q : List QI) : Nat := (q.map qsizeE).sum

/-- Entry size of a generate worklist entry. -/
def gsizeE (e : QG) : Nat := 1 + wsizeL e.2.2

/-- Total size of the generate worklist. -/
def gsize (q : List QG) : Nat := (q.map gsizeE).sum

/-- Wrapping of a worklist construct back into a module item (used to model
the item list of a specialized body). -/
def treeToItem : WTree → ModuleItem
  | .inst d cs => .minst d cs true
  | .gen gd cs => .mother (.cons (.gen gd cs) .nil) true

/-- Item list of a specialized body. -/
def wlistToItems : WList → List ModuleItem
  | .nil => []
  | .cons t ts => treeToItem t :: wlistToItems ts

/-- Modelled from the spec: the `Elaborate` specializer produces a newly
allocated, fully substituted elaborated subtree for an instantiation; the
engine then overwrites its attributes (own, or propagated from the root
instantiation when the instantiation carries none). -/
def mkEV (d : InstData) (cs : WList) : EV :=
  { attrsOwn := !d.attrsEmpty, items := wlistToItems cs }

/-- Result of the instantiation pass: final state, generate constructs
discovered during the pass, and the pass's processing trace. -/
structure IPassOut where
  st : PState
  gens : List QG
  evs : List Ev
deriving DecidableEq, Repr

/-- Result of the generate pass: final state, instantiations discovered
during the pass (they populate the next fixed-point iteration), and the
pass's processing trace. -/
structure GPassOut where
  st : PState
  insts : List QI
  evs : List Ev
deriving DecidableEq, Repr

/-- One step of the instantiation pass (lines 197-215): run the checker's
pre-elaboration validation; on success with `expand_insts_` set, specialize
the instantiation, re-traverse the specialized body (discovering its
top-level constructs), and register the elaborated instance keyed by the
full hierarchical identifier.  Attribute propagation reads
`root_inst_->get_attrs()` when the instantiation's own attributes are
empty; if no root instantiation has been adopted yet this dereferences a
null pointer, recorded by the sticky `ub` flag. -/
def instStep (m : Mode) (st : PState) (e : QI) : PState × List QI × List QG :=
  if !e.2.1.ok then
    ({ st with logs := st.logs ++ [Err.semantic] }, [], [])
  else if m.expandInsts then
    let full := e.1 ++ [e.2.1.iid]
    let r := routeTrees full e.2.2
    let ub := st.ub || (e.2.1.attrsEmpty && st.rootInst.isNone)
    ({ st with elabsP := st.elabsP ++ [(full, mkEV e.2.1 e.2.2)], ub := ub },
     r.1, r.2)
  else
    (st, [], [])

/-- The instantiation pass: C++ iterates with `i < inst_queue_.size()`
re-read on every iteration, so entries pushed during the pass are processed
in the same pass; the loop short-circuits as soon as `error()` holds.
Structurally recursive on fuel; `qsize q` fuel is always sufficient. -/
def instPassF (m : Mode) : Nat → PState → List QI → IPassOut
  | 0, st, _ => ⟨st, [], []⟩
  | _ + 1, st, [] => ⟨st, [], []⟩
  | f + 1, st, e :: rest =>
      if st.err then ⟨st, [], []⟩
      else
        let s := instStep m st e
        let r := instPassF m f s.1 (rest ++ s.2.1)
        ⟨r.st, s.2.2 ++ r.gens, Ev.i (e.1 ++ [e.2.1.iid]) :: r.evs⟩

/-- One step of the generate pass (lines 223-247): all three kinds behave
identically up to dispatch; on success with `expand_gens_` set the branch
is expanded in place and its top-level constructs discovered (in the
enclosing scope). -/
def genStep (m : Mode) (st : PState) (e : QG) : PState × List QI × List QG :=
  if !e.2.1.ok then
    ({ st with logs := st.logs ++ [Err.semantic] }, [], [])
  else if m.expandGens then
    let r := routeTrees e.1 e.2.2
    (st, r.1, r.2)
  else
    (st, [], [])

/-- The generate pass; like the instantiation pass, the loop bound re-reads
the queue, so generate constructs discovered while expanding a generate
construct are processed in the same pass, while discovered instantiations
accumulate for the next fixed-point iteration. -/
def genPassF (m : Mode) : Nat → PState → List QG → GPassOut
  | 0, st, _ => ⟨st, [], []⟩
  | _ + 1, st, [] => ⟨st, [], []⟩
  | f + 1, st, e :: rest =>
      if st.err then ⟨st, [], []⟩
      else
        let s := genStep m st e
        let r := genPassF m f s.1 (rest ++ s.2.2)
        ⟨r.st, s.2.1 ++ r.insts, Ev.g e.2.1.tag :: r.evs⟩

/-- One iteration of the fixed-point loop (lines 196-249): drain the
instantiation worklist (then clear it), then drain the generate worklist
seeded with the constructs discovered during the instantiation pass (then
clear it); instantiations discovered during the generate pass populate the
next iteration. -/
def elabStep (m : Mode) (st : PState) (iq : List QI) (gq : List QG) :
    PState × List QI × List Ev :=
  let r1 := instPassF m (qsize iq) st iq
  let r2 := genPassF m (gsize (gq ++ r1.gens)) r1.st (gq ++ r1.gens)
  (r2.st, r2.insts, r1.evs ++ r2.evs)

/-- Result of the fixed-point loop: final state, the two worklists as left
behind when the `while` condition last failed, and the trace of each
iteration. -/
structure LoopOut where
  st : PState
  iq : List QI
  gq : List QG
  groups : List (List Ev)
deriving DecidableEq, Repr

/-- The fixed-point loop, structurally recursive on fuel;
`qsize iq + gsize gq + 1` fuel is always sufficient. -/
def elabLoopF (m : Mode) : Nat → PState → List QI → List QG → LoopOut
  | 0, st, iq, gq => ⟨st, iq, gq, []⟩
  | f + 1, st, iq, gq =>
      if st.err then ⟨st, iq, gq, []⟩
      else if iq = [] ∧ gq = [] then ⟨st, [], [], []⟩
      else
        let s := elabStep m st iq gq
        let r := elabLoopF m f s.1 s.2.1 []
        ⟨r.st, r.iq, r.gq, s.2.2 :: r.groups⟩

/-- Result of `Program::elaborate`: the state, the two worklists at return,
and the per-iteration trace. -/
structure ElabOut where
  st : PState
  instQ : List QI
  genQ : List QG
  groups : List (List Ev)
deriving DecidableEq, Repr

/-- The post-elaboration check (lines 251-254): run only when no failure
occurred; `postOk` is the checker-oracle verdict for the traversed node. -/
def postCheck (postOk : Bool) (a : PState) : PState :=
  if a.err then a
  else if postOk then a
  else { a with logs := a.logs ++ [Err.semantic] }

/-- `Program::elaborate` (lines 186-255): clear both worklists, traverse the
node (populating them in traversal order), run the fixed-point loop, and,
when no failure occurred, run the checker's post-elaboration validation. -/
def elaborateTrees (m : Mode) (st : PState) (ctx : Path) (trees : WList)
    (postOk : Bool) : ElabOut :=
  let q := routeTrees ctx trees
  let r := elabLoopF m (qsize q.1 + gsize q.2 + 1) st q.1 q.2
  ⟨postCheck postOk r.st, r.iq, r.gq, r.groups⟩

/-- Worklist constructs discovered by traversing a module item: a module
instantiation is itself queued; any other item contributes the constructs
found inside it. -/
def itemTrees : ModuleItem → WList
  | .minst d cs _ => .cons (.inst d cs) .nil
  | .mother ts _ => ts

/-- The checker's post-elaboration verdict for a module item. -/
def itemPostOk : ModuleItem → Bool
  | .minst _ _ p => p
  | .mother _ p => p

/-- Whether a module item is a module instantiation (the
`dynamic_cast<ModuleInstantiation*>` test in `eval_root`). -/
def isInstItem : ModuleItem → Bool
  | .minst _ _ _ => true
  | .mother _ _ => false

/-- `Program::elaborate_item` (lines 257-263): configure full-expansion mode
and elaborate the item; `ctx` is the enclosing scope's full hierarchical
path (empty for the root attempt). -/
def elaborate_item (st : PState) (ctx : Path) (mi : ModuleItem) : ElabOut :=
  elaborateTrees itemMode st ctx (itemTrees mi) (itemPostOk mi)

/-- Update the value stored at a key of an association-list table in place
(the C++ code mutates the pointed-to object directly, bypassing the
versioned-table interface). -/
def updEV (l : List (Path × EV)) (k : Path) (f : EV → EV) :
    List (Path × EV) :=
  l.map fun e => if e.1 = k then (e.1, f e.2) else e

/-- `Program::eval_root` (lines 265-282): checkpoint the elaborated-instance
table; the item must be an instantiation whose module-type identifier
matches the first-ever registered declaration, else fail with the
missing-root error; on elaboration failure undo the checkpoint and destroy
the item; on success commit, adopt the item as the root instantiation and
point the root cursor at the table's first entry.  When the item is an
instantiation and no declaration was ever registered, the guard
dereferences `root_decl()` = `decls_.end()`, recorded by the sticky `ub`
flag. -/
def eval_root (st : PState) (mi : ModuleItem) : PState :=
  match mi with
  | .mother _ _ =>
      let st := { st with logs := st.logs ++ [Err.missingRoot] }
      { st with elabsP := [], freed := st.freed + 1 }
  | .minst d cs postOk =>
      match st.rootDitr with
      | none =>
          let st := { st with ub := true,
                              logs := st.logs ++ [Err.missingRoot] }
          { st with elabsP := [], freed := st.freed + 1 }
      | some rd =>
          if d.mid ≠ rd then
            let st := { st with logs := st.logs ++ [Err.missingRoot] }
            { st with elabsP := [], freed := st.freed + 1 }
          else
            let r := elaborate_item st [] (.minst d cs postOk)
            if r.st.err then
              { r.st with elabsP := [], freed := r.st.freed + 1 }
            else
              let st2 := { r.st with elabsC := r.st.elabsC ++ r.st.elabsP,
                                     elabsP := [] }
              { st2 with rootInst := some d,
                         rootEitr := st2.elabsC.head?.map (·.1) }

/-- `Program::eval_item` (lines 284-309): speculatively append the item to
the root elaborated instance's item list, checkpoint, elaborate; on failure
undo the checkpoint, invalidate references and scope caches recorded
against the appended item, and purge it from the item list (restoring the
prior length and deleting the node, per the source comment); on success
commit.  Either way, invalidate the cached module information of every
elaborated instance.  Reading `root_eitr_` when it is the end iterator is
undefined, recorded by the sticky `ub` flag. -/
def eval_item (st : PState) (mi : ModuleItem) : PState :=
  match st.rootEitr with
  | none => { st with ub := true }
  | some rk =>
      let st := { st with
        elabsC := updEV st.elabsC rk fun ev => { ev with items := ev.items ++ [mi] } }
      let r := elaborate_item st rk mi
      let st2 :=
        if r.st.err then
          let sa := { r.st with elabsP := [] }
          let sb := { sa with invs := sa.invs ++ [InvEv.resolveItem, InvEv.navScope] }
          { sb with
            elabsC := updEV sb.elabsC rk fun ev => { ev with items := ev.items.dropLast },
            freed := sb.freed + 1 }
        else
          { r.st with elabsC := r.st.elabsC ++ r.st.elabsP, elabsP := [] }
      { st2 with invs := st2.invs ++ [InvEv.modInfoAll] }

/-- `Program::eval` (lines 129-136): clear the diagnostics, then dispatch on
whether the elaborated-instance table is empty. -/
def eval (st : PState) (mi : ModuleItem) : PState :=
  let st := { st with logs := [] }
  if (st.elabsC ++ st.elabsP).isEmpty then eval_root st mi else eval_item st mi

/-- Default-attribute propagation (lines 82-84): when the declaration
carries no attributes and a root declaration exists, replace them with a
clone of the root declaration's attributes. -/
def propagate (st : PState) (md : ModuleDeclaration) : ModuleDeclaration :=
  if md.attrsEmpty && st.rootDitr.isSome then
    { md with attrsEmpty :=
        (((st.decls.find? fun e => e.1 = st.rootDitr.getD []).map
            fun e => e.2.attrsEmpty).getD md.attrsEmpty) }
  else md

/-- `Program::declare` (lines 78-108): clear the diagnostics; when the
declaration carries no attributes and a root declaration exists, replace
them with a clone of the root declaration's attributes; elaborate in
static mode; fail when a declaration with the same module-type identifier
already exists (the duplicate-declaration error) or when the checker
failed, destroying the input node; otherwise checkpoint, insert, commit,
and, if the table now has exactly one entry, mark it the root
declaration. -/
def declare (st : PState) (md : ModuleDeclaration) : PState :=
  let st := { st with logs := [] }
  let md := propagate st md
  let r := elaborateTrees declMode st [] md.body md.postOk
  let st1 :=
    if (r.st.decls.find? fun e => e.1 = md.id).isSome then
      { r.st with logs := r.st.logs ++ [Err.duplicateDecl] }
    else r.st
  if st1.err then { st1 with freed := st1.freed + 1 }
  else
    let decls := st1.decls ++ [(md.id, md)]
    let st2 := { st1 with decls := decls }
    if decls.length = 1 then { st2 with rootDitr := some md.id } else st2

/-- `Program::declare_and_instantiate` (lines 110-127): register the
declaration; on success synthesize a default instantiation — instance name
the lower-cased first component of the module-type identifier, an empty
attribute set, no port connections — and evaluate it.  The expansion of
the synthesized instantiation clones the declaration's body, so its
worklist subtree is the declaration's; `preOk` and `postOk` are the
checker-oracle verdicts for the synthesized node. -/
def declare_and_instantiate (st : PState) (md : ModuleDeclaration)
    (preOk postOk : Bool) : PState :=
  let st1 := declare st md
  if st1.err then st1
  else
    let iid := (md.id.headD "").toLower
    let mi := ModuleItem.minst ⟨md.id, iid, true, preOk⟩ md.body postOk
    eval st1 mi

/-- Keys of the elaborated-instance table as observable between calls
(the pending batch is empty at every call boundary). -/
def keys (st : PState) : List Path := st.elabsC.map (·.1)

/-- Length of the root elaborated instance's item list, when a root
exists. -/
def rootLen (st : PState) : Option Nat :=
  st.rootEitr.bind fun k =>
    (st.elabsC.find? fun e => e.1 = k).map fun e => e.2.items.length

/-! ### Basic lemmas about the engine -/

theorem err_false_iff (st : PState) : st.err = false ↔ st.logs = [] := by
  cases h : st.logs <;> simp [PState.err, h]

theorem err_true_iff (st : PState) : st.err = true ↔ st.logs ≠ [] := by
  cases h : st.logs <;> simp [PState.err, h]

/-- Traversal exactly partitions a construct list into the two worklists:
the sizes add up. -/
theorem routeTrees_size (ctx : Path) :
    ∀ ts : WList,
      qsize (routeTrees ctx ts).1 + gsize (routeTrees ctx ts).2 = wsizeL ts
  | .nil => by simp [routeTrees, qsize, gsize, wsizeL]
  | .cons (.inst d cs) ts => by
      have ih := routeTrees_size ctx ts
      simp only [routeTrees, qsize, gsize, List.map_cons, List.sum_cons,
        wsizeL, wsize, qsizeE] at *
      omega
  | .cons (.gen gd cs) ts => by
      have ih := routeTrees_size ctx ts
      simp only [routeTrees, qsize, gsize, List.map_cons, List.sum_cons,
        wsizeL, wsize, gsizeE] at *
      omega

theorem qsize_append (a b : List QI) : qsize (a ++ b) = qsize a + qsize b := by
  simp [qsize]

theorem gsize_append (a b : List QG) : gsize (a ++ b) = gsize a + gsize b := by
  simp [gsize]

theorem instStep_size (m : Mode) (st : PState) (e : QI) :
    qsize (instStep m st e).2.1 + gsize (instStep m st e).2.2 ≤ wsizeL e.2.2 := by
  obtain ⟨ctx, d, cs⟩ := e
  by_cases h : d.ok
  · by_cases hm : m.expandInsts
    · simp only [instStep, h, hm, Bool.not_true, Bool.false_eq_true, if_false,
        if_true]
      have := routeTrees_size (ctx ++ [d.iid]) cs
      omega
    · simp [instStep, h, hm, qsize, gsize]
  · simp [instStep, h, qsize, gsize]

theorem genStep_size (m : Mode) (st : PState) (e : QG) :
    qsize (genStep m st e).2.1 + gsize (genStep m st e).2.2 ≤ wsizeL e.2.2 := by
  obtain ⟨ctx, d, cs⟩ := e
  by_cases h : d.ok
  · by_cases hm : m.expandGens
    · simp only [genStep, h, hm, Bool.not_true, Bool.false_eq_true, if_false,
        if_true]
      have := routeTrees_size ctx cs
      omega
    · simp [genStep, h, hm, qsize, gsize]
  · simp [genStep, h, qsize, gsize]

/-- Relation between two engine states: everything the worklist engine may
not touch is preserved, the pending batch and the diagnostics only grow,
and the undefined-behavior flag is sticky. -/
structure Frame (a b : PState) : Prop where
  decls : b.decls = a.decls
  elabsC : b.elabsC = a.elabsC
  rootDitr : b.rootDitr = a.rootDitr
  rootEitr : b.rootEitr = a.rootEitr
  rootInst : b.rootInst = a.rootInst
  freed : b.freed = a.freed
  invs : b.invs = a.invs
  elabsP : ∃ l, b.elabsP = a.elabsP ++ l
  logs : ∃ l, b.logs = a.logs ++ l
  ubMono : a.ub = true → b.ub = true

theorem Frame.refl (a : PState) : Frame a a :=
  ⟨rfl, rfl, rfl, rfl, rfl, rfl, rfl, ⟨[], by simp⟩, ⟨[], by simp⟩, fun h => h⟩

theorem Frame.trans {a b c : PState} (h1 : Frame a b) (h2 : Frame b c) :
    Frame a c := by
  obtain ⟨l1, hl1⟩ := h1.elabsP
  obtain ⟨l2, hl2⟩ := h2.elabsP
  obtain ⟨g1, hg1⟩ := h1.logs
  obtain ⟨g2, hg2⟩ := h2.logs
  exact ⟨h2.decls.trans h1.decls, h2.elabsC.trans h1.elabsC,
    h2.rootDitr.trans h1.rootDitr, h2.rootEitr.trans h1.rootEitr,
    h2.rootInst.trans h1.rootInst, h2.freed.trans h1.freed,
    h2.invs.trans h1.invs,
    ⟨l1 ++ l2, by rw [hl2, hl1, List.append_assoc]⟩,
    ⟨g1 ++ g2, by rw [hg2, hg1, List.append_assoc]⟩,
    fun h => h2.ubMono (h1.ubMono h)⟩

theorem instStep_frame (m : Mode) (st : PState) (e : QI) :
    Frame st (instStep m st e).1 := by
  obtain ⟨ctx, d, cs⟩ := e
  by_cases h : d.ok
  · by_cases hm : m.expandInsts
    · refine ⟨?_, ?_, ?_, ?_, ?_, ?_, ?_,
        ⟨[(ctx ++ [d.iid], mkEV d cs)], ?_⟩, ⟨[], ?_⟩, fun hu => ?_⟩ <;>
        simp [instStep, h, hm, *]
    · simpa [instStep, h, hm] using Frame.refl st
  · refine ⟨?_, ?_, ?_, ?_, ?_, ?_, ?_, ⟨[], ?_⟩, ⟨[Err.semantic], ?_⟩,
      fun hu => ?_⟩ <;> simp [instStep, h, *]

theorem genStep_frame (m : Mode) (st : PState) (e : QG) :
    Frame st (genStep m st e).1 := by
  obtain ⟨ctx, d, cs⟩ := e
  by_cases h : d.ok
  · by_cases hm : m.expandGens
    · simpa [genStep, h, hm] using Frame.refl st
    · simpa [genStep, h, hm] using Frame.refl st
  · refine ⟨?_, ?_, ?_, ?_, ?_, ?_, ?_, ⟨[], ?_⟩, ⟨[Err.semantic], ?_⟩,
      fun hu => ?_⟩ <;> simp [genStep, h, *]

theorem instPassF_frame (m : Mode) (f : Nat) (st : PState) (q : List QI) :
    Frame st (instPassF m f st q).st := by
  induction f generalizing st q with
  | zero => exact Frame.refl st
  | succ f ih =>
      cases q with
      | nil => exact Frame.refl st
      | cons e rest =>
          by_cases h : st.err
          · simpa [instPassF, h] using Frame.refl st
          · simp only [instPassF, h, if_false, Bool.false_eq_true]
            exact (instStep_frame m st e).trans (ih _ _)

theorem genPassF_frame (m : Mode) (f : Nat) (st : PState) (q : List QG) :
    Frame st (genPassF m f st q).st := by
  induction f generalizing st q with
  | zero => exact Frame.refl st
  | succ f ih =>
      cases q with
      | nil => exact Frame.refl st
      | cons e rest =>
          by_cases h : st.err
          · simpa [genPassF, h] using Frame.refl st
          · simp only [genPassF, h, if_false, Bool.false_eq_true]
            exact (genStep_frame m st e).trans (ih _ _)

theorem elabStep_frame (m : Mode) (st : PState) (iq : List QI) (gq : List QG) :
    Frame st (elabStep m st iq gq).1 :=
  (instPassF_frame m _ st iq).trans (genPassF_frame m _ _ _)

theorem elabLoopF_frame (m : Mode) (f : Nat) (st : PState) (iq : List QI)
    (gq : List QG) : Frame st (elabLoopF m f st iq gq).st := by
  induction f generalizing st iq gq with
  | zero => exact Frame.refl st
  | succ f ih =>
      by_cases h : st.err
      · simpa [elabLoopF, h] using Frame.refl st
      · by_cases h2 : iq = [] ∧ gq = []
        · simpa [elabLoopF, h, h2] using Frame.refl st
        · simp only [elabLoopF, h, h2, if_false, Bool.false_eq_true]
          exact (elabStep_frame m st iq gq).trans (ih _ _ _)

theorem postCheck_frame (postOk : Bool) (a : PState) :
    Frame a (postCheck postOk a) := by
  by_cases he : a.err
  · simpa [postCheck, he] using Frame.refl a
  · by_cases hp : postOk
    · simpa [postCheck, he, hp] using Frame.refl a
    · refine ⟨?_, ?_, ?_, ?_, ?_, ?_, ?_, ⟨[], ?_⟩, ⟨[Err.semantic], ?_⟩,
        fun hu => ?_⟩ <;> simp [postCheck, he, hp, *]

theorem elaborateTrees_frame (m : Mode) (st : PState) (ctx : Path)
    (trees : WList) (postOk : Bool) :
    Frame st (elaborateTrees m st ctx trees postOk).st :=
  Frame.trans
    (elabLoopF_frame m
      (qsize (routeTrees ctx trees).1 + gsize (routeTrees ctx trees).2 + 1) st
      (routeTrees ctx trees).1 (routeTrees ctx trees).2)
    (postCheck_frame postOk _)

theorem logs_nil_of_frame {a b : PState} (h : Frame a b) (hb : b.logs = []) :
    a.logs = [] := by
  obtain ⟨l, hl⟩ := h.logs
  rcases List.append_eq_nil.mp (hl ▸ hb) with ⟨h1, _⟩
  exact h1

theorem ub_false_of_frame {a b : PState} (h : Frame a b) (hb : b.ub = false) :
    a.ub = false := by
  cases ha : a.ub with
  | false => rfl
  | true => rw [h.ubMono ha] at hb; exact absurd hb (by simp)

theorem qsize_pos {q : List QI} (h : q ≠ []) : 1 ≤ qsize q := by
  cases q with
  | nil => exact absurd rfl h
  | cons e rest => simp [qsize, qsizeE]; omega

theorem gsize_pos {q : List QG} (h : q ≠ []) : 1 ≤ gsize q := by
  cases q with
  | nil => exact absurd rfl h
  | cons e rest => simp [gsize, gsizeE]; omega

theorem qsize_eq_zero {q : List QI} (h : qsize q = 0) : q = [] := by
  cases q with
  | nil => rfl
  | cons e rest => simp [qsize, qsizeE] at h

/-- The generate constructs discovered during an instantiation pass are never
bigger than what the pass consumed. -/
theorem instPassF_gens_le (m : Mode) (f : Nat) (st : PState) (q : List QI) :
    gsize (instPassF m f st q).gens ≤ qsize q := by
  induction f generalizing st q with
  | zero => simp [instPassF, gsize]
  | succ f ih =>
      cases q with
      | nil => simp [instPassF, gsize]
      | cons e rest =>
          by_cases h : st.err
          · simp [instPassF, h, gsize]
          · simp only [instPassF, h, if_false, Bool.false_eq_true]
            have h1 := instStep_size m st e
            have h2 := ih (instStep m st e).1 (rest ++ (instStep m st e).2.1)
            rw [qsize_append] at h2
            simp only [gsize_append, qsize, List.map_cons, List.sum_cons]
            simp only [qsize] at h1 h2 ⊢
            simp only [qsizeE]
            omega

theorem instPassF_gens_lt (m : Mode) (f : Nat) (st : PState) (q : List QI)
    (he : st.err = false) (hq : q ≠ []) :
    gsize (instPassF m f st q).gens < qsize q := by
  have hp := qsize_pos hq
  cases f with
  | zero => simpa [instPassF, gsize] using hp
  | succ f =>
      cases q with
      | nil => exact absurd rfl hq
      | cons e rest =>
          simp only [instPassF, he, if_false, Bool.false_eq_true]
          have h1 := instStep_size m st e
          have h2 := instPassF_gens_le m f (instStep m st e).1
            (rest ++ (instStep m st e).2.1)
          rw [qsize_append] at h2
          simp only [gsize_append, qsize, List.map_cons, List.sum_cons]
          simp only [qsize] at h1 h2 ⊢
          simp only [qsizeE]
          omega

theorem genPassF_insts_le (m : Mode) (f : Nat) (st : PState) (q : List QG) :
    qsize (genPassF m f st q).insts ≤ gsize q := by
  induction f generalizing st q with
  | zero => simp [genPassF, qsize]
  | succ f ih =>
      cases q with
      | nil => simp [genPassF, qsize]
      | cons e rest =>
          by_cases h : st.err
          · simp [genPassF, h, qsize]
          · simp only [genPassF, h, if_false, Bool.false_eq_true]
            have h1 := genStep_size m st e
            have h2 := ih (genStep m st e).1 (rest ++ (genStep m st e).2.2)
            rw [gsize_append] at h2
            simp only [qsize_append, gsize, List.map_cons, List.sum_cons]
            simp only [gsize] at h1 h2 ⊢
            simp only [gsizeE]
            omega

theorem genPassF_insts_lt (m : Mode) (f : Nat) (st : PState) (q : List QG)
    (he : st.err = false) (hq : q ≠ []) :
    qsize (genPassF m f st q).insts < gsize q := by
  have hp := gsize_pos hq
  cases f with
  | zero => simpa [genPassF, qsize] using hp
  | succ f =>
      cases q with
      | nil => exact absurd rfl hq
      | cons e rest =>
          simp only [genPassF, he, if_false, Bool.false_eq_true]
          have h1 := genStep_size m st e
          have h2 := genPassF_insts_le m f (genStep m st e).1
            (rest ++ (genStep m st e).2.2)
          rw [gsize_append] at h2
          simp only [qsize_append, gsize, List.map_cons, List.sum_cons]
          simp only [gsize] at h1 h2 ⊢
          simp only [gsizeE]
          omega

/-- Each full iteration of the fixed-point loop strictly shrinks the total
amount of queued work. -/
theorem elabStep_lt (m : Mode) (st : PState) (iq : List QI) (gq : List QG)
    (he : st.err = false) (hq : ¬(iq = [] ∧ gq = [])) :
    qsize (elabStep m st iq gq).2.1 < qsize iq + gsize gq := by
  cases iq with
  | nil =>
      have hgq : gq ≠ [] := fun h => hq ⟨rfl, h⟩
      have h1 : instPassF m (qsize ([] : List QI)) st [] = ⟨st, [], []⟩ := by
        simp [qsize, instPassF]
      simp only [elabStep, h1]
      have h2 := genPassF_insts_lt m (gsize (gq ++ [])) st (gq ++ []) he
        (by simpa using hgq)
      simpa [qsize] using h2
  | cons e rest =>
      simp only [elabStep]
      have h1 := instPassF_gens_lt m (qsize (e :: rest)) st (e :: rest) he
        (by simp)
      have h2 := genPassF_insts_le m
        (gsize (gq ++ (instPassF m (qsize (e :: rest)) st (e :: rest)).gens))
        (instPassF m (qsize (e :: rest)) st (e :: rest)).st
        (gq ++ (instPassF m (qsize (e :: rest)) st (e :: rest)).gens)
      have h3 := gsize_append gq
        (instPassF m (qsize (e :: rest)) st (e :: rest)).gens
      omega

/-- On an error-free run, the fixed-point loop only returns once both
worklists are empty (in particular its fuel never runs out). -/
theorem elabLoopF_drain (m : Mode) (f : Nat) (st : PState) (iq : List QI)
    (gq : List QG) (hf : qsize iq + gsize gq < f)
    (h : (elabLoopF m f st iq gq).st.logs = []) :
    (elabLoopF m f st iq gq).iq = [] ∧ (elabLoopF m f st iq gq).gq = [] := by
  induction f generalizing st iq gq with
  | zero => omega
  | succ f ih =>
      by_cases he : st.err = true
      · exfalso
        exact (err_true_iff st).mp he (by simpa [elabLoopF, he] using h)
      · have hb : st.err = false := by simpa using he
        by_cases h2 : iq = [] ∧ gq = []
        · constructor <;> simp [elabLoopF, hb, h2]
        · have hlt := elabStep_lt m st iq gq hb h2
          have hgz : gsize ([] : List QG) = 0 := by simp [gsize]
          have hf' : qsize (elabStep m st iq gq).2.1 +
              gsize ([] : List QG) < f := by omega
          have h' : (elabLoopF m f (elabStep m st iq gq).1
              (elabStep m st iq gq).2.1 []).st.logs = [] := by
            simpa [elabLoopF, hb, h2] using h
          have hr := ih (elabStep m st iq gq).1 (elabStep m st iq gq).2.1 []
            hf' h'
          constructor <;> simp [elabLoopF, hb, h2, hr.1, hr.2]

/-! ### Ordering of the worklist passes -/

theorem instPassF_evs_isI (m : Mode) (f : Nat) (st : PState) (q : List QI) :
    ∀ ev ∈ (instPassF m f st q).evs, ev.isI = true := by
  induction f generalizing st q with
  | zero => simp [instPassF]
  | succ f ih =>
      cases q with
      | nil => simp [instPassF]
      | cons e rest =>
          by_cases h : st.err
          · simp [instPassF, h]
          · simp only [instPassF, h, if_false, Bool.false_eq_true]
            intro ev hev
            rcases List.mem_cons.mp hev with h1 | h1
            · rw [h1]; rfl
            · exact ih _ _ ev h1

theorem genPassF_evs_isG (m : Mode) (f : Nat) (st : PState) (q : List QG) :
    ∀ ev ∈ (genPassF m f st q).evs, ev.isI = false := by
  induction f generalizing st q with
  | zero => simp [genPassF]
  | succ f ih =>
      cases q with
      | nil => simp [genPassF]
      | cons e rest =>
          by_cases h : st.err
          · simp [genPassF, h]
          · simp only [genPassF, h, if_false, Bool.false_eq_true]
            intro ev hev
            rcases List.mem_cons.mp hev with h1 | h1
            · rw [h1]; rfl
            · exact ih _ _ ev h1

theorem split_by_filter (a b : List Ev) (ha : ∀ e ∈ a, e.isI = true)
    (hb : ∀ e ∈ b, e.isI = false) :
    a ++ b = (a ++ b).filter Ev.isI ++ (a ++ b).filter (fun e => !e.isI) := by
  have h1 : a.filter Ev.isI = a := List.filter_eq_self.mpr ha
  have h2 : b.filter Ev.isI = [] := List.filter_eq_nil_iff.mpr (by
    intro e he
    simp [hb e he])
  have h3 : a.filter (fun e => !e.isI) = [] := List.filter_eq_nil_iff.mpr (by
    intro e he
    simp [ha e he])
  have h4 : b.filter (fun e => !e.isI) = b := List.filter_eq_self.mpr (by
    intro e he
    simp [hb e he])
  rw [List.filter_append, List.filter_append, h1, h2, h3, h4,
    List.append_nil, List.nil_append]

/-- Every iteration's trace is the instantiation-pass trace followed by the
generate-pass trace. -/
theorem elabLoopF_groups_split (m : Mode) (f : Nat) (st : PState)
    (iq : List QI) (gq : List QG) :
    ∀ g ∈ (elabLoopF m f st iq gq).groups,
      g = g.filter Ev.isI ++ g.filter (fun e => !e.isI) := by
  induction f generalizing st iq gq with
  | zero => simp [elabLoopF]
  | succ f ih =>
      by_cases h : st.err
      · simp [elabLoopF, h]
      · by_cases h2 : iq = [] ∧ gq = []
        · simp [elabLoopF, h, h2]
        · simp only [elabLoopF, h, h2, if_false, Bool.false_eq_true]
          intro g hg
          rcases List.mem_cons.mp hg with h1 | h1
          · rw [h1]
            exact split_by_filter _ _ (instPassF_evs_isI m _ st iq)
              (genPassF_evs_isG m _ _ _)
          · exact ih _ _ _ g h1

/-- A pass begun with clean diagnostics and finishing with clean diagnostics
processes the initially queued instantiations first, in queue order. -/
theorem instPassF_take (m : Mode) (f : Nat) (st : PState) (q : List QI)
    (hf : qsize q ≤ f) (h0 : st.logs = [])
    (h : (instPassF m f st q).st.logs = []) :
    (instPassF m f st q).evs.take q.length =
      q.map fun e => Ev.i (e.1 ++ [e.2.1.iid]) := by
  induction f generalizing st q with
  | zero =>
      have : q = [] := qsize_eq_zero (by omega)
      subst this
      simp [instPassF]
  | succ f ih =>
      cases q with
      | nil => simp [instPassF]
      | cons e rest =>
          have hb : st.err = false := err_false_iff st |>.mpr h0
          simp only [instPassF, hb, if_false, Bool.false_eq_true] at h ⊢
          have hok : e.2.1.ok = true := by
            by_contra hok
            have hlog : (instStep m st e).1.logs = st.logs ++ [Err.semantic] := by
              simp [instStep, hok]
            obtain ⟨l, hl⟩ := (instPassF_frame m f (instStep m st e).1
              (rest ++ (instStep m st e).2.1)).logs
            rw [hl, hlog, h0] at h
            simp at h
          have hlog : (instStep m st e).1.logs = st.logs := by
            by_cases hm : m.expandInsts <;> simp [instStep, hok, hm]
          have hfu : qsize (rest ++ (instStep m st e).2.1) ≤ f := by
            have h1 := instStep_size m st e
            have h2 := qsize_append rest (instStep m st e).2.1
            simp only [qsize, List.map_cons, List.sum_cons, qsizeE] at hf ⊢
            simp only [qsize] at h1 h2
            omega
          have hih := ih (instStep m st e).1 (rest ++ (instStep m st e).2.1)
            hfu (hlog.trans h0) h
          simp only [List.length_cons, List.map_cons, List.take_succ_cons]
          refine congrArg (Ev.i (e.1 ++ [e.2.1.iid]) :: ·) ?_
          have h3 := congrArg (List.take rest.length) hih
          rw [List.take_take, List.length_append] at h3
          rw [Nat.min_def] at h3
          simp only [Nat.le_add_right, if_true, if_pos (Nat.le_add_right _ _)]
            at h3
          rw [h3, List.map_append, ← List.length_map rest
            (fun e => Ev.i (e.1 ++ [e.2.1.iid])), List.take_left]

/-- The generate-pass analogue of `instPassF_take`. -/
theorem genPassF_take (m : Mode) (f : Nat) (st : PState) (q : List QG)
    (hf : gsize q ≤ f) (h0 : st.logs = [])
    (h : (genPassF m f st q).st.logs = []) :
    (genPassF m f st q).evs.take q.length =
      q.map fun e => Ev.g e.2.1.tag := by
  induction f generalizing st q with
  | zero =>
      have : q = [] := by
        cases q with
        | nil => rfl
        | cons e rest => simp [gsize, gsizeE] at hf
      subst this
      simp [genPassF]
  | succ f ih =>
      cases q with
      | nil => simp [genPassF]
      | cons e rest =>
          have hb : st.err = false := err_false_iff st |>.mpr h0
          simp only [genPassF, hb, if_false, Bool.false_eq_true] at h ⊢
          have hok : e.2.1.ok = true := by
            by_contra hok
            have hlog : (genStep m st e).1.logs = st.logs ++ [Err.semantic] := by
              simp [genStep, hok]
            obtain ⟨l, hl⟩ := (genPassF_frame m f (genStep m st e).1
              (rest ++ (genStep m st e).2.2)).logs
            rw [hl, hlog, h0] at h
            simp at h
          have hlog : (genStep m st e).1.logs = st.logs := by
            by_cases hm : m.expandGens <;> simp [genStep, hok, hm]
          have hfu : gsize (rest ++ (genStep m st e).2.2) ≤ f := by
            have h1 := genStep_size m st e
            have h2 := gsize_append rest (genStep m st e).2.2
            simp only [gsize, List.map_cons, List.sum_cons, gsizeE] at hf ⊢
            simp only [gsize] at h1 h2
            omega
          have hih := ih (genStep m st e).1 (rest ++ (genStep m st e).2.2)
            hfu (hlog.trans h0) h
          simp only [List.length_cons, List.map_cons, List.take_succ_cons]
          refine congrArg (Ev.g e.2.1.tag :: ·) ?_
          have h3 := congrArg (List.take rest.length) hih
          rw [List.take_take, List.length_append] at h3
          rw [Nat.min_def] at h3
          simp only [Nat.le_add_right, if_true, if_pos (Nat.le_add_right _ _)]
            at h3
          rw [h3, List.map_append, ← List.length_map rest
            (fun e => Ev.g e.2.1.tag), List.take_left]

/-- Conversion of the mutual-inductive construct list to an ordinary list. -/
def WList.toList : WList → List WTree
  | .nil => []
  | .cons t ts => t :: WList.toList ts

/-- An instantiation among a node's discovered constructs is routed onto the
instantiation worklist. -/
theorem routeTrees_mem_inst (ctx : Path) (d : InstData) (cs : WList) :
    ∀ ts : WList, WTree.inst d cs ∈ ts.toList →
      (ctx, d, cs) ∈ (routeTrees ctx ts).1
  | .nil => by simp [WList.toList]
  | .cons (.inst d2 cs2) ts => by
      intro h
      rcases List.mem_cons.mp h with h1 | h1
      · obtain ⟨h2, h3⟩ := WTree.inst.inj h1.symm
        subst h2; subst h3
        simp [routeTrees]
      · simp only [routeTrees, List.mem_cons]
        exact Or.inr (routeTrees_mem_inst ctx d cs ts h1)
  | .cons (.gen gd cs2) ts => by
      intro h
      rcases List.mem_cons.mp h with h1 | h1
      · exact absurd h1 (by simp)
      · simpa only [routeTrees] using routeTrees_mem_inst ctx d cs ts h1

/-- Every instantiation queued when an error-free pass begins is processed by
that pass. -/
theorem instPassF_mem_evs (m : Mode) (f : Nat) (st : PState) (q : List QI)
    (e : QI) (hf : qsize q ≤ f) (h0 : st.logs = [])
    (h : (instPassF m f st q).st.logs = []) (he : e ∈ q) :
    Ev.i (e.1 ++ [e.2.1.iid]) ∈ (instPassF m f st q).evs := by
  induction f generalizing st q with
  | zero =>
      have : q = [] := qsize_eq_zero (by omega)
      subst this
      exact absurd he (by simp)
  | succ f ih =>
      cases q with
      | nil => exact absurd he (by simp)
      | cons x rest =>
          have hb : st.err = false := err_false_iff st |>.mpr h0
          simp only [instPassF, hb, if_false, Bool.false_eq_true] at h ⊢
          have hok : x.2.1.ok = true := by
            by_contra hok
            have hlog : (instStep m st x).1.logs = st.logs ++ [Err.semantic] := by
              simp [instStep, hok]
            obtain ⟨l, hl⟩ := (instPassF_frame m f (instStep m st x).1
              (rest ++ (instStep m st x).2.1)).logs
            rw [hl, hlog, h0] at h
            simp at h
          have hlog : (instStep m st x).1.logs = st.logs := by
            by_cases hm : m.expandInsts <;> simp [instStep, hok, hm]
          have hfu : qsize (rest ++ (instStep m st x).2.1) ≤ f := by
            have h1 := instStep_size m st x
            have h2 := qsize_append rest (instStep m st x).2.1
            simp only [qsize, List.map_cons, List.sum_cons, qsizeE] at hf ⊢
            simp only [qsize] at h1 h2
            omega
          rcases List.mem_cons.mp he with h1 | h1
          · subst h1
            exact List.mem_cons_self _ _
          · exact List.mem_cons_of_mem _
              (ih (instStep m st x).1 (rest ++ (instStep m st x).2.1) hfu
                (hlog.trans h0) h (List.mem_append_left _ h1))

/-- Claim C6 (amended): during the instantiation pass of one fixed-point
iteration, instantiations newly discovered by expanding an already-queued
instantiation ARE processed in that same pass, because the pass's loop
bound re-reads the growing worklist (`i < inst_queue_.size()`); the
worklist is cleared only after the pass has drained every entry, including
the discovered ones.  Stated for any error-free pass with expansion
enabled: the pre-elaboration-check event of every instantiation discovered
by expanding a queued entry appears in that pass's own trace. -/
theorem instPassF_child_evs (m : Mode) (f : Nat) (st : PState) (q : List QI)
    (e : QI) (d : InstData) (cs2 : WList) (hf : qsize q ≤ f)
    (h0 : st.logs = []) (h : (instPassF m f st q).st.logs = [])
    (hm : m.expandInsts = true) (he : e ∈ q)
    (hc : WTree.inst d cs2 ∈ e.2.2.toList) :
    Ev.i ((e.1 ++ [e.2.1.iid]) ++ [d.iid]) ∈ (instPassF m f st q).evs := by
  induction f generalizing st q with
  | zero =>
      have : q = [] := qsize_eq_zero (by omega)
      subst this
      exact absurd he (by simp)
  | succ f ih =>
      cases q with
      | nil => exact absurd he (by simp)
      | cons x rest =>
          have hb : st.err = false := err_false_iff st |>.mpr h0
          simp only [instPassF, hb, if_false, Bool.false_eq_true] at h ⊢
          have hok : x.2.1.ok = true := by
            by_contra hok
            have hlog : (instStep m st x).1.logs = st.logs ++ [Err.semantic] := by
              simp [instStep, hok]
            obtain ⟨l, hl⟩ := (instPassF_frame m f (instStep m st x).1
              (rest ++ (instStep m st x).2.1)).logs
            rw [hl, hlog, h0] at h
            simp at h
          have hlog : (instStep m st x).1.logs = st.logs := by
            by_cases hm2 : m.expandInsts <;> simp [instStep, hok, hm2]
          have hfu : qsize (rest ++ (instStep m st x).2.1) ≤ f := by
            have h1 := instStep_size m st x
            have h2 := qsize_append rest (instStep m st x).2.1
            simp only [qsize, List.map_cons, List.sum_cons, qsizeE] at hf ⊢
            simp only [qsize] at h1 h2
            omega
          rcases List.mem_cons.mp he with h1 | h1
          · subst h1
            have hqi : (instStep m st e).2.1 =
                (routeTrees (e.1 ++ [e.2.1.iid]) e.2.2).1 := by
              simp [instStep, hok, hm]
            have hmem : (e.1 ++ [e.2.1.iid], d, cs2) ∈
                rest ++ (instStep m st e).2.1 := by
              rw [hqi]
              exact List.mem_append_right _
                (routeTrees_mem_inst (e.1 ++ [e.2.1.iid]) d cs2 e.2.2 hc)
            exact List.mem_cons_of_mem _
              (instPassF_mem_evs m f (instStep m st e).1
                (rest ++ (instStep m st e).2.1)
                (e.1 ++ [e.2.1.iid], d, cs2) hfu (hlog.trans h0) h hmem)
          · exact List.mem_cons_of_mem _
              (ih (instStep m st x).1 (rest ++ (instStep m st x).2.1) hfu
                (hlog.trans h0) h (List.mem_append_left _ h1))

theorem postCheck_logs_nil {p : Bool} {a : PState}
    (h : (postCheck p a).logs = []) : a.logs = [] := by
  by_cases he : a.err = true
  · simpa [postCheck, he] using h
  · by_cases hp : p = true
    · simpa [postCheck, he, hp] using h
    · simp [postCheck, he, hp] at h

/-- Claim C4: for every finite, acyclic instantiation/generate nesting given
to the worklist engine (any `WList` forest), `elaborate` terminates — the
model is a total function whose fuel is proven sufficient — and when it
returns without error both the instantiation worklist and the
generate-construct worklist are empty. -/
theorem elaborate_drains_worklists (m : Mode) (st : PState) (ctx : Path)
    (trees : WList) (postOk : Bool)
    (h : (elaborateTrees m st ctx trees postOk).st.logs = []) :
    (elaborateTrees m st ctx trees postOk).instQ = [] ∧
      (elaborateTrees m st ctx trees postOk).genQ = [] := by
  have hloop : (elabLoopF m
      (qsize (routeTrees ctx trees).1 + gsize (routeTrees ctx trees).2 + 1) st
      (routeTrees ctx trees).1 (routeTrees ctx trees).2).st.logs = [] :=
    postCheck_logs_nil h
  exact elabLoopF_drain m _ st (routeTrees ctx trees).1
    (routeTrees ctx trees).2 (by omega) hloop

/-- A fresh `Program` state (all tables empty, no root, clean diagnostics),
as established by the constructor. -/
def progEmpty : PState := ⟨[], [], [], none, none, none, [], 0, [], false⟩

/-- An instantiation node whose expansion discovers a nested
instantiation. -/
def cexTreeB : WTree := .inst ⟨["M"], "b", false, true⟩ .nil

/-- The parent instantiation of `cexTreeB`. -/
def cexTreeA : WTree := .inst ⟨["M"], "a", false, true⟩ (.cons cexTreeB .nil)

theorem elaborate_drains_worklists_w :
    (elaborateTrees itemMode progEmpty [] (.cons cexTreeA .nil) true).st.logs
        = [] ∧
      ((elaborateTrees itemMode progEmpty [] (.cons cexTreeA .nil)
          true).instQ = [] ∧
        (elaborateTrees itemMode progEmpty [] (.cons cexTreeA .nil)
          true).genQ = []) :=
  ⟨by decide,
   elaborate_drains_worklists itemMode progEmpty [] (.cons cexTreeA .nil) true
     (by decide)⟩

/-- Claim C5: in every iteration of the fixed-point loop, all queued
instantiations are processed before any queued generate construct (each
iteration's trace splits as its instantiation events followed by its
generate events), and within each worklist the entries queued at the start
of an error-free pass are processed first, in queue (discovery) order. -/
theorem elaborate_iteration_order (m : Mode) (st : PState) (ctx : Path)
    (trees : WList) (postOk : Bool) :
    (∀ g ∈ (elaborateTrees m st ctx trees postOk).groups,
        g = g.filter Ev.isI ++ g.filter fun e => !e.isI)
    ∧ (∀ f st2 q, qsize q ≤ f → st2.logs = [] →
        (instPassF m f st2 q).st.logs = [] →
        (instPassF m f st2 q).evs.take q.length =
          q.map fun e => Ev.i (e.1 ++ [e.2.1.iid]))
    ∧ (∀ f st2 q, gsize q ≤ f → st2.logs = [] →
        (genPassF m f st2 q).st.logs = [] →
        (genPassF m f st2 q).evs.take q.length =
          q.map fun e => Ev.g e.2.1.tag) := by
  refine ⟨?_, ?_, ?_⟩
  · intro g hg
    exact elabLoopF_groups_split m _ st _ _ g hg
  · intro f st2 q hf h0 h
    exact instPassF_take m f st2 q hf h0 h
  · intro f st2 q hf h0 h
    exact genPassF_take m f st2 q hf h0 h

/-- A generate construct whose expansion discovers an instantiation. -/
def cexGenC : WTree :=
  .gen ⟨GKind.loopGen, "c", true⟩ (.cons (.inst ⟨["M"], "d", false, true⟩ .nil) .nil)

theorem elaborate_iteration_order_w :
    ([Ev.i ["a"], Ev.i ["a", "b"], Ev.g "c"] =
        ([Ev.i ["a"], Ev.i ["a", "b"], Ev.g "c"]).filter Ev.isI ++
          ([Ev.i ["a"], Ev.i ["a", "b"], Ev.g "c"]).filter fun e => !e.isI)
    ∧ ((instPassF itemMode 2 progEmpty
          [(([] : Path), (⟨["M"], "a", false, true⟩ : InstData),
            WList.cons cexTreeB WList.nil)]).evs.take
            [(([] : Path), (⟨["M"], "a", false, true⟩ : InstData),
              WList.cons cexTreeB WList.nil)].length =
        [(([] : Path), (⟨["M"], "a", false, true⟩ : InstData),
          WList.cons cexTreeB WList.nil)].map fun e =>
            Ev.i (e.1 ++ [e.2.1.iid]))
    ∧ ((genPassF itemMode 2 progEmpty
          [(([] : Path), (⟨GKind.ifGen, "g", true⟩ : GenData),
            WList.nil)]).evs.take
            [(([] : Path), (⟨GKind.ifGen, "g", true⟩ : GenData),
              WList.nil)].length =
        [(([] : Path), (⟨GKind.ifGen, "g", true⟩ : GenData),
          WList.nil)].map fun e => Ev.g e.2.1.tag) :=
  ⟨(elaborate_iteration_order itemMode progEmpty []
      (.cons cexTreeA (.cons cexGenC .nil)) true).1
        [Ev.i ["a"], Ev.i ["a", "b"], Ev.g "c"] (by decide),
   (elaborate_iteration_order itemMode progEmpty []
      (.cons cexTreeA (.cons cexGenC .nil)) true).2.1 2 progEmpty
        [(([] : Path), ⟨["M"], "a", false, true⟩,
          WList.cons cexTreeB WList.nil)]
        (by decide) (by decide) (by decide),
   (elaborate_iteration_order itemMode progEmpty []
      (.cons cexTreeA (.cons cexGenC .nil)) true).2.2 2 progEmpty
        [(([] : Path), ⟨GKind.ifGen, "g", true⟩, WList.nil)]
        (by decide) (by decide) (by decide)⟩

/-- Claim C6 counterexample: elaborating an instantiation `a` whose
expansion discovers a nested instantiation `b` (in full-expansion mode,
error-free) produces exactly one fixed-point iteration, and `b`'s
pre-elaboration check event lies in that same first iteration's trace —
so the discovered instantiation is processed in the same pass, not "only
in the next iteration" as the claim states. -/
theorem same_pass_discovery_cex :
    (elaborateTrees itemMode progEmpty [] (.cons cexTreeA .nil)
        true).groups = [[Ev.i ["a"], Ev.i ["a", "b"]]] ∧
      (elaborateTrees itemMode progEmpty [] (.cons cexTreeA .nil)
        true).st.logs = [] := by
  exact ⟨by decide, by decide⟩

theorem instPassF_child_evs_w :
    qsize [(([] : Path), (⟨["M"], "a", false, true⟩ : InstData),
        WList.cons cexTreeB WList.nil)] ≤ 2 ∧
      progEmpty.logs = [] ∧
      (instPassF itemMode 2 progEmpty [([], ⟨["M"], "a", false, true⟩,
        WList.cons cexTreeB WList.nil)]).st.logs = [] ∧
      itemMode.expandInsts = true ∧
      Ev.i ((([] : Path) ++ ["a"]) ++ ["b"]) ∈
        (instPassF itemMode 2 progEmpty [([], ⟨["M"], "a", false, true⟩,
          WList.cons cexTreeB WList.nil)]).evs :=
  ⟨by decide, by decide, by decide, by decide,
   instPassF_child_evs itemMode 2 progEmpty
     [([], ⟨["M"], "a", false, true⟩, WList.cons cexTreeB WList.nil)]
     ([], ⟨["M"], "a", false, true⟩, WList.cons cexTreeB WList.nil)
     ⟨["M"], "b", false, true⟩ WList.nil (by decide) (by decide) (by decide)
     (by decide) (by decide) (by decide)⟩

/-! ### Pending-batch behavior of the engine -/

theorem postCheck_same (p : Bool) (a : PState) :
    (postCheck p a).elabsP = a.elabsP ∧ (postCheck p a).elabsC = a.elabsC ∧
      (postCheck p a).ub = a.ub ∧ (postCheck p a).decls = a.decls := by
  by_cases he : a.err = true
  · simp [postCheck, he]
  · by_cases hp : p = true <;> simp [postCheck, he, hp]

theorem instStep_static (m : Mode) (st : PState) (e : QI)
    (hm : m.expandInsts = false) :
    (instStep m st e).1.elabsP = st.elabsP ∧
      (instStep m st e).1.ub = st.ub := by
  by_cases h : e.2.1.ok <;> simp [instStep, h, hm]

theorem instPassF_static (m : Mode) (f : Nat) (st : PState) (q : List QI)
    (hm : m.expandInsts = false) :
    (instPassF m f st q).st.elabsP = st.elabsP ∧
      (instPassF m f st q).st.ub = st.ub := by
  induction f generalizing st q with
  | zero => simp [instPassF]
  | succ f ih =>
      cases q with
      | nil => simp [instPassF]
      | cons e rest =>
          by_cases h : st.err
          · simp [instPassF, h]
          · simp only [instPassF, h, if_false, Bool.false_eq_true]
            have h1 := instStep_static m st e hm
            have h2 := ih (instStep m st e).1 (rest ++ (instStep m st e).2.1)
            exact ⟨h2.1.trans h1.1, h2.2.trans h1.2⟩

theorem genStep_same (m : Mode) (st : PState) (e : QG) :
    (genStep m st e).1.elabsP = st.elabsP ∧
      (genStep m st e).1.ub = st.ub := by
  by_cases h : e.2.1.ok
  · by_cases hm : m.expandGens <;> simp [genStep, h, hm]
  · simp [genStep, h]

theorem genPassF_same (m : Mode) (f : Nat) (st : PState) (q : List QG) :
    (genPassF m f st q).st.elabsP = st.elabsP ∧
      (genPassF m f st q).st.ub = st.ub := by
  induction f generalizing st q with
  | zero => simp [genPassF]
  | succ f ih =>
      cases q with
      | nil => simp [genPassF]
      | cons e rest =>
          by_cases h : st.err
          · simp [genPassF, h]
          · simp only [genPassF, h, if_false, Bool.false_eq_true]
            have h1 := genStep_same m st e
            have h2 := ih (genStep m st e).1 (rest ++ (genStep m st e).2.2)
            exact ⟨h2.1.trans h1.1, h2.2.trans h1.2⟩

theorem elabLoopF_static (m : Mode) (f : Nat) (st : PState) (iq : List QI)
    (gq : List QG) (hm : m.expandInsts = false) :
    (elabLoopF m f st iq gq).st.elabsP = st.elabsP ∧
      (elabLoopF m f st iq gq).st.ub = st.ub := by
  induction f generalizing st iq gq with
  | zero => simp [elabLoopF]
  | succ f ih =>
      by_cases h : st.err
      · simp [elabLoopF, h]
      · by_cases h2 : iq = [] ∧ gq = []
        · simp [elabLoopF, h, h2]
        · simp only [elabLoopF, h, h2, if_false, Bool.false_eq_true]
          have h1 := instPassF_static m (qsize iq) st iq hm
          have h3 := genPassF_same m
            (gsize (gq ++ (instPassF m (qsize iq) st iq).gens))
            (instPassF m (qsize iq) st iq).st
            (gq ++ (instPassF m (qsize iq) st iq).gens)
          have h4 := ih (elabStep m st iq gq).1 (elabStep m st iq gq).2.1 []
          refine ⟨h4.1.trans ?_, h4.2.trans ?_⟩
          · exact (show (elabStep m st iq gq).1.elabsP = st.elabsP from
              h3.1.trans h1.1)
          · exact (show (elabStep m st iq gq).1.ub = st.ub from
              h3.2.trans h1.2)

theorem elaborateTrees_static (m : Mode) (st : PState) (ctx : Path)
    (trees : WList) (postOk : Bool) (hm : m.expandInsts = false) :
    (elaborateTrees m st ctx trees postOk).st.elabsP = st.elabsP ∧
      (elaborateTrees m st ctx trees postOk).st.ub = st.ub := by
  have h1 := elabLoopF_static m
    (qsize (routeTrees ctx trees).1 + gsize (routeTrees ctx trees).2 + 1) st
    (routeTrees ctx trees).1 (routeTrees ctx trees).2 hm
  have h2 := postCheck_same postOk
    (elabLoopF m
      (qsize (routeTrees ctx trees).1 + gsize (routeTrees ctx trees).2 + 1) st
      (routeTrees ctx trees).1 (routeTrees ctx trees).2).st
  exact ⟨h2.1.trans h1.1, (h2.2.2.1).trans h1.2⟩

/-! ### The in-place value update used by `eval_item` -/

theorem updEV_keys (l : List (Path × EV)) (k : Path) (f : EV → EV) :
    (updEV l k f).map (·.1) = l.map (·.1) := by
  induction l with
  | nil => rfl
  | cons e rest ih =>
      simp only [updEV, List.map_cons] at ih ⊢
      by_cases h : e.1 = k <;> simp [h, ih]

theorem updEV_find (l : List (Path × EV)) (k : Path) (f : EV → EV) :
    ((updEV l k f).find? fun e => e.1 = k) =
      (l.find? fun e => e.1 = k).map fun e => (e.1, f e.2) := by
  induction l with
  | nil => rfl
  | cons e rest ih =>
      by_cases h : e.1 = k
      · simp only [updEV, List.map_cons, if_pos h]
        rw [List.find?_cons_of_pos _ (by simpa using h),
          List.find?_cons_of_pos _ (by simpa using h)]
        rfl
      · simp only [updEV, List.map_cons, if_neg h]
        rw [List.find?_cons_of_neg _ (by simpa using h),
          List.find?_cons_of_neg _ (by simpa using h)]
        simpa only [updEV] using ih

theorem find_append_left {l1 l2 : List (Path × EV)} {p : Path × EV → Bool}
    (h : (l1.find? p).isSome) : (l1 ++ l2).find? p = l1.find? p := by
  induction l1 with
  | nil => simp at h
  | cons e rest ih =>
      by_cases hp : p e
      · simp [List.find?_cons_of_pos _ hp]
      · rw [List.find?_cons_of_neg _ hp] at h ⊢
        rw [List.cons_append, List.find?_cons_of_neg _ hp]
        exact ih h

/-- A successful expanding pass over a nonempty queue registers at least one
elaborated instance. -/
theorem instPassF_head_pending (m : Mode) (f : Nat) (st : PState) (e : QI)
    (rest : List QI) (hm : m.expandInsts = true) (h0 : st.logs = [])
    (h : (instPassF m (f + 1) st (e :: rest)).st.logs = []) :
    (instPassF m (f + 1) st (e :: rest)).st.elabsP ≠ [] := by
  have hb : st.err = false := err_false_iff st |>.mpr h0
  simp only [instPassF, hb, if_false, Bool.false_eq_true] at h ⊢
  have hok : e.2.1.ok = true := by
    by_contra hok
    have hlog : (instStep m st e).1.logs = st.logs ++ [Err.semantic] := by
      simp [instStep, hok]
    obtain ⟨l, hl⟩ := (instPassF_frame m f (instStep m st e).1
      (rest ++ (instStep m st e).2.1)).logs
    rw [hl, hlog, h0] at h
    simp at h
  have hpend : (instStep m st e).1.elabsP =
      st.elabsP ++ [(e.1 ++ [e.2.1.iid], mkEV e.2.1 e.2.2)] := by
    simp [instStep, hok, hm]
  obtain ⟨l, hl⟩ := (instPassF_frame m f (instStep m st e).1
    (rest ++ (instStep m st e).2.1)).elabsP
  rw [hl, hpend]
  simp

theorem elabStep_head_pending (m : Mode) (st : PState) (iq : List QI)
    (gq : List QG) (hm : m.expandInsts = true) (h0 : st.logs = [])
    (hiq : iq ≠ []) (h : (elabStep m st iq gq).1.logs = []) :
    (elabStep m st iq gq).1.elabsP ≠ [] := by
  cases iq with
  | nil => exact absurd rfl hiq
  | cons e rest =>
      have hfu : qsize (e :: rest) = (qsize (e :: rest) - 1) + 1 := by
        have := qsize_pos (q := e :: rest) (by simp)
        omega
      have hlogs : (instPassF m (qsize (e :: rest)) st (e :: rest)).st.logs
          = [] := by
        have hfr := genPassF_frame m
          (gsize (gq ++ (instPassF m (qsize (e :: rest)) st (e :: rest)).gens))
          (instPassF m (qsize (e :: rest)) st (e :: rest)).st
          (gq ++ (instPassF m (qsize (e :: rest)) st (e :: rest)).gens)
        exact logs_nil_of_frame hfr h
      have h1 := instPassF_head_pending m (qsize (e :: rest) - 1) st e rest hm
        h0 (by rw [← hfu]; exact hlogs)
      rw [← hfu] at h1
      have h2 := genPassF_same m
        (gsize (gq ++ (instPassF m (qsize (e :: rest)) st (e :: rest)).gens))
        (instPassF m (qsize (e :: rest)) st (e :: rest)).st
        (gq ++ (instPassF m (qsize (e :: rest)) st (e :: rest)).gens)
      show (genPassF m
        (gsize (gq ++ (instPassF m (qsize (e :: rest)) st (e :: rest)).gens))
        (instPassF m (qsize (e :: rest)) st (e :: rest)).st
        (gq ++ (instPassF m (qsize (e :: rest)) st
          (e :: rest)).gens)).st.elabsP ≠ []
      rw [h2.1]
      exact h1

theorem elabLoopF_head_pending (m : Mode) (f : Nat) (st : PState)
    (iq : List QI) (gq : List QG) (hm : m.expandInsts = true)
    (h0 : st.logs = []) (hiq : iq ≠ [])
    (h : (elabLoopF m (f + 1) st iq gq).st.logs = []) :
    (elabLoopF m (f + 1) st iq gq).st.elabsP ≠ [] := by
  have hb : st.err = false := err_false_iff st |>.mpr h0
  have h2 : ¬(iq = [] ∧ gq = []) := fun hx => hiq hx.1
  simp only [elabLoopF, hb, h2, if_false, Bool.false_eq_true] at h ⊢
  have hstep : (elabStep m st iq gq).1.logs = [] :=
    logs_nil_of_frame (elabLoopF_frame m f (elabStep m st iq gq).1
      (elabStep m st iq gq).2.1 []) h
  have h1 := elabStep_head_pending m st iq gq hm h0 hiq hstep
  obtain ⟨l, hl⟩ := (elabLoopF_frame m f (elabStep m st iq gq).1
    (elabStep m st iq gq).2.1 []).elabsP
  rw [hl]
  intro hx
  exact h1 (List.append_eq_nil.mp hx).1

/-- A successful full-expansion elaboration of a lone instantiation leaves a
nonempty pending batch: at least the root instance itself was
registered. -/
theorem elaborateTrees_root_pending (st : PState) (d : InstData) (cs : WList)
    (postOk : Bool) (h0 : st.logs = [])
    (h : (elaborateTrees itemMode st []
      (WList.cons (WTree.inst d cs) WList.nil) postOk).st.logs = []) :
    (elaborateTrees itemMode st []
      (WList.cons (WTree.inst d cs) WList.nil) postOk).st.elabsP ≠ [] := by
  have hq : routeTrees [] (WList.cons (WTree.inst d cs) WList.nil) =
      ([(([] : Path), d, cs)], []) := by
    simp [routeTrees]
  have hloop : (elabLoopF itemMode
      (qsize (routeTrees [] (WList.cons (WTree.inst d cs) WList.nil)).1 +
        gsize (routeTrees [] (WList.cons (WTree.inst d cs) WList.nil)).2 + 1)
      st (routeTrees [] (WList.cons (WTree.inst d cs) WList.nil)).1
      (routeTrees [] (WList.cons (WTree.inst d cs) WList.nil)).2).st.logs
      = [] := postCheck_logs_nil h
  have hpc := postCheck_same postOk
    (elabLoopF itemMode
      (qsize (routeTrees [] (WList.cons (WTree.inst d cs) WList.nil)).1 +
        gsize (routeTrees [] (WList.cons (WTree.inst d cs) WList.nil)).2 + 1)
      st (routeTrees [] (WList.cons (WTree.inst d cs) WList.nil)).1
      (routeTrees [] (WList.cons (WTree.inst d cs) WList.nil)).2).st
  show (postCheck postOk _).elabsP ≠ []
  rw [hpc.1]
  refine elabLoopF_head_pending itemMode _ st _ _ rfl h0 ?_ hloop
  rw [hq]
  simp

/-! ### Characterizations of `eval` and its two branches -/

theorem eval_dispatch_root (st : PState) (mi : ModuleItem)
    (hC : st.elabsC = []) (hP : st.elabsP = []) :
    eval st mi = eval_root { st with logs := [] } mi := by
  simp [eval, hC, hP]

theorem eval_dispatch_item (st : PState) (mi : ModuleItem)
    (hC : st.elabsC ≠ []) (hP : st.elabsP = []) :
    eval st mi = eval_item { st with logs := [] } mi := by
  simp [eval, hP, hC]

theorem eval_root_mother (st : PState) (ts : WList) (p : Bool) :
    eval_root st (.mother ts p) =
      { st with logs := st.logs ++ [Err.missingRoot], elabsP := [],
                freed := st.freed + 1 } := rfl

theorem eval_root_none (st : PState) (d : InstData) (cs : WList) (p : Bool)
    (h : st.rootDitr = none) :
    eval_root st (.minst d cs p) =
      { st with ub := true, logs := st.logs ++ [Err.missingRoot],
                elabsP := [], freed := st.freed + 1 } := by
  simp [eval_root, h]

theorem eval_root_mismatch (st : PState) (d : InstData) (cs : WList)
    (p : Bool) (rd : Path) (h : st.rootDitr = some rd) (hm : d.mid ≠ rd) :
    eval_root st (.minst d cs p) =
      { st with logs := st.logs ++ [Err.missingRoot], elabsP := [],
                freed := st.freed + 1 } := by
  simp [eval_root, h, hm]

theorem eval_root_match (st : PState) (d : InstData) (cs : WList) (p : Bool)
    (rd : Path) (h : st.rootDitr = some rd) (hm : d.mid = rd) :
    eval_root st (.minst d cs p) =
      (if (elaborate_item st [] (.minst d cs p)).st.err then
        { (elaborate_item st [] (.minst d cs p)).st with
          elabsP := [],
          freed := (elaborate_item st [] (.minst d cs p)).st.freed + 1 }
      else
        { (elaborate_item st [] (.minst d cs p)).st with
          elabsC := (elaborate_item st [] (.minst d cs p)).st.elabsC ++
            (elaborate_item st [] (.minst d cs p)).st.elabsP,
          elabsP := [],
          rootInst := some d,
          rootEitr := (((elaborate_item st [] (.minst d cs p)).st.elabsC ++
            (elaborate_item st [] (.minst d cs p)).st.elabsP).head?).map
              (·.1) }) := by
  simp only [eval_root, h, hm, ne_eq, not_true_eq_false, if_false,
    Bool.false_eq_true]

theorem eval_item_none (st : PState) (mi : ModuleItem)
    (h : st.rootEitr = none) :
    eval_item st mi = { st with ub := true } := by
  simp [eval_item, h]

theorem eval_item_some (st : PState) (mi : ModuleItem) (rk : Path)
    (h : st.rootEitr = some rk) :
    eval_item st mi =
      (if (elaborate_item { st with elabsC := updEV st.elabsC rk fun ev =>
            { ev with items := ev.items ++ [mi] } } rk mi).st.err then
        { (elaborate_item { st with elabsC := updEV st.elabsC rk fun ev =>
              { ev with items := ev.items ++ [mi] } } rk mi).st with
          elabsP := [],
          elabsC := updEV (elaborate_item { st with
              elabsC := updEV st.elabsC rk fun ev =>
                { ev with items := ev.items ++ [mi] } } rk mi).st.elabsC rk
            (fun ev => { ev with items := ev.items.dropLast }),
          freed := (elaborate_item { st with
              elabsC := updEV st.elabsC rk fun ev =>
                { ev with items := ev.items ++ [mi] } } rk mi).st.freed + 1,
          invs := (elaborate_item { st with
              elabsC := updEV st.elabsC rk fun ev =>
                { ev with items := ev.items ++ [mi] } } rk mi).st.invs ++
            [InvEv.resolveItem, InvEv.navScope] ++ [InvEv.modInfoAll] }
      else
        { (elaborate_item { st with elabsC := updEV st.elabsC rk fun ev =>
              { ev with items := ev.items ++ [mi] } } rk mi).st with
          elabsC := (elaborate_item { st with
              elabsC := updEV st.elabsC rk fun ev =>
                { ev with items := ev.items ++ [mi] } } rk mi).st.elabsC ++
            (elaborate_item { st with
              elabsC := updEV st.elabsC rk fun ev =>
                { ev with items := ev.items ++ [mi] } } rk mi).st.elabsP,
          elabsP := [],
          invs := (elaborate_item { st with
              elabsC := updEV st.elabsC rk fun ev =>
                { ev with items := ev.items ++ [mi] } } rk mi).st.invs ++
            [InvEv.modInfoAll] }) := by
  simp only [eval_item, h]
  split <;> simp_all

theorem elaborate_item_frame (st : PState) (ctx : Path) (mi : ModuleItem) :
    Frame st (elaborate_item st ctx mi).st :=
  elaborateTrees_frame itemMode st ctx (itemTrees mi) (itemPostOk mi)

/-- Full characterization of an incremental `eval_item` call: on failure the
table keys and the root item-list length are restored, the speculative
append is reverted, the item is destroyed and the invalidations are sent;
on success the keys grow by the committed batch and the root item list
keeps the appended item. -/
theorem eval_item_spec (st : PState) (mi : ModuleItem) (rk : Path)
    (hP : st.elabsP = []) (hE : st.rootEitr = some rk)
    (hfind : (st.elabsC.find? fun e => e.1 = rk).isSome)
    (h0 : st.logs = []) :
    ((eval_item st mi).err = true →
        keys (eval_item st mi) = keys st ∧
          rootLen (eval_item st mi) = rootLen st ∧
          (eval_item st mi).elabsP = [] ∧
          (eval_item st mi).freed = st.freed + 1 ∧
          (eval_item st mi).invs =
            st.invs ++ [InvEv.resolveItem, InvEv.navScope, InvEv.modInfoAll])
    ∧ ((eval_item st mi).err = false →
        (keys (eval_item st mi)).take (keys st).length = keys st ∧
          (eval_item st mi).elabsP = [] ∧
          rootLen (eval_item st mi) = (rootLen st).map fun n => n + 1) := by
  rw [eval_item_some st mi rk hE]
  have hfr := elaborate_item_frame
    { st with elabsC := updEV st.elabsC rk fun ev =>
        { ev with items := ev.items ++ [mi] } } rk mi
  obtain ⟨e, hfe⟩ := Option.isSome_iff_exists.mp hfind
  have h1 : (elaborate_item { st with
      elabsC := updEV st.elabsC rk fun ev =>
        { ev with items := ev.items ++ [mi] } } rk mi).st.rootEitr =
      some rk := by
    rw [hfr.rootEitr]; exact hE
  have h2 : (elaborate_item { st with
      elabsC := updEV st.elabsC rk fun ev =>
        { ev with items := ev.items ++ [mi] } } rk mi).st.elabsC =
      updEV st.elabsC rk (fun ev => { ev with items := ev.items ++ [mi] }) :=
    hfr.elabsC
  have h3 : ((updEV st.elabsC rk fun ev =>
      { ev with items := ev.items ++ [mi] }).find? fun x => x.1 = rk) =
      some (e.1, { e.2 with items := e.2.items ++ [mi] }) := by
    rw [updEV_find, hfe]; rfl
  have hkeys : (elaborate_item { st with
      elabsC := updEV st.elabsC rk fun ev =>
        { ev with items := ev.items ++ [mi] } } rk mi).st.elabsC.map
      (·.1) = st.elabsC.map (·.1) := by
    rw [h2]; exact updEV_keys st.elabsC rk _
  by_cases herr : (elaborate_item { st with
      elabsC := updEV st.elabsC rk fun ev =>
        { ev with items := ev.items ++ [mi] } } rk mi).st.err
  · rw [if_pos herr]
    constructor
    · intro _
      refine ⟨?_, ?_, rfl, ?_, ?_⟩
      · simp only [keys]
        rw [updEV_keys, hkeys]
      · simp only [rootLen, h1, Option.some_bind]
        rw [h2, updEV_find, updEV_find, hfe, hE]
        simp [hfe, List.dropLast_concat]
      · rw [hfr.freed]
      · rw [hfr.invs]
        simp
    · intro hfalse
      exact absurd ((err_false_iff _).mp (by simpa using hfalse))
        ((err_true_iff _).mp herr)
  · rw [if_neg herr]
    constructor
    · intro htrue
      exact absurd ((err_false_iff _).mp (by simpa using herr))
        ((err_true_iff _).mp htrue)
    · intro _
      have h4a : ((elaborate_item { st with
          elabsC := updEV st.elabsC rk fun ev =>
            { ev with items := ev.items ++ [mi] } } rk mi).st.elabsC.find?
          fun x => x.1 = rk) =
          some (e.1, { e.2 with items := e.2.items ++ [mi] }) := by
        rw [h2]; exact h3
      have h4 : (((elaborate_item { st with
          elabsC := updEV st.elabsC rk fun ev =>
            { ev with items := ev.items ++ [mi] } } rk mi).st.elabsC ++
          (elaborate_item { st with
          elabsC := updEV st.elabsC rk fun ev =>
            { ev with items := ev.items ++ [mi] } } rk mi).st.elabsP).find?
          fun x => x.1 = rk) =
          some (e.1, { e.2 with items := e.2.items ++ [mi] }) := by
        rw [find_append_left (by rw [h4a]; rfl)]
        exact h4a
      refine ⟨?_, rfl, ?_⟩
      · simp only [keys, List.map_append]
        rw [← hkeys]
        exact List.take_left _ _
      · simp only [rootLen, h1, Option.some_bind]
        rw [h4, hE]
        simp [hfe]

/-- Full characterization of a root `eval_root` attempt started on an empty
elaborated-instance table. -/
theorem eval_root_spec (st : PState) (mi : ModuleItem)
    (hC : st.elabsC = []) (hP : st.elabsP = []) (h0 : st.logs = [])
    (hub : (eval_root st mi).ub = false) :
    ((eval_root st mi).err = true →
        keys (eval_root st mi) = keys st ∧
          rootLen (eval_root st mi) = rootLen st ∧
          (eval_root st mi).elabsP = [] ∧
          (eval_root st mi).freed = st.freed + 1)
    ∧ ((eval_root st mi).err = false →
        (keys (eval_root st mi)).take (keys st).length = keys st ∧
          (eval_root st mi).elabsP = [] ∧
          (rootLen (eval_root st mi)).isSome = true) := by
  cases mi with
  | mother ts p =>
      rw [eval_root_mother]
      constructor
      · intro _
        exact ⟨rfl, rfl, rfl, rfl⟩
      · intro hfalse
        exact absurd ((err_false_iff _).mp hfalse) (by simp [h0])
  | minst d cs p =>
      cases hD : st.rootDitr with
      | none =>
          rw [eval_root_none st d cs p hD] at hub
          simp at hub
      | some rd =>
          by_cases hmid : d.mid = rd
          · rw [eval_root_match st d cs p rd hD hmid] at hub ⊢
            by_cases herr : (elaborate_item st [] (.minst d cs p)).st.err
            · rw [if_pos herr] at hub ⊢
              have hfr := elaborate_item_frame st [] (.minst d cs p)
              constructor
              · intro _
                refine ⟨?_, ?_, rfl, ?_⟩
                · simp only [keys]
                  rw [hfr.elabsC]
                · simp only [rootLen]
                  rw [hfr.rootEitr, hfr.elabsC]
                · rw [hfr.freed]
              · intro hfalse
                exact absurd ((err_false_iff _).mp (by simpa using hfalse))
                  ((err_true_iff _).mp herr)
            · rw [if_neg herr] at hub ⊢
              have hfr := elaborate_item_frame st [] (.minst d cs p)
              have hlogs : (elaborate_item st [] (.minst d cs p)).st.logs
                  = [] := (err_false_iff _).mp (by simpa using herr)
              have hpend : (elaborate_item st [] (.minst d cs p)).st.elabsP
                  ≠ [] := elaborateTrees_root_pending st d cs p h0 hlogs
              have hCE : (elaborate_item st [] (.minst d cs p)).st.elabsC
                  = [] := by rw [hfr.elabsC]; exact hC
              constructor
              · intro htrue
                exact absurd hlogs ((err_true_iff _).mp htrue)
              · intro _
                refine ⟨?_, rfl, ?_⟩
                · simp [keys, hC]
                · obtain ⟨p0, tl, hpl⟩ : ∃ p0 tl,
                      (elaborate_item st [] (.minst d cs p)).st.elabsP =
                        p0 :: tl := by
                    cases hx : (elaborate_item st []
                        (.minst d cs p)).st.elabsP with
                    | nil => exact absurd hx hpend
                    | cons a b => exact ⟨a, b, rfl⟩
                  simp only [rootLen]
                  rw [hCE, hpl]
                  simp [List.find?_cons]
          · rw [eval_root_mismatch st d cs p rd hD hmid]
            constructor
            · intro _
              exact ⟨rfl, rfl, rfl, rfl⟩
            · intro hfalse
              exact absurd ((err_false_iff _).mp hfalse) (by simp [h0])

theorem propagate_fields (st : PState) (md : ModuleDeclaration) :
    (propagate st md).id = md.id ∧ (propagate st md).body = md.body ∧
      (propagate st md).postOk = md.postOk := by
  unfold propagate
  split <;> exact ⟨rfl, rfl, rfl⟩

/-- Characterization of a successful `declare`: the identifier was fresh and
exactly one entry was appended; nothing else changed except possibly the
root-declaration cursor. -/
theorem declare_success (st : PState) (md : ModuleDeclaration)
    (hs : (declare st md).logs = []) :
    (declare st md).decls =
        st.decls ++ [(md.id, propagate { st with logs := [] } md)] ∧
      (st.decls.find? fun e => e.1 = md.id) = none ∧
      (declare st md).freed = st.freed ∧
      (declare st md).elabsC = st.elabsC ∧
      (declare st md).elabsP = st.elabsP := by
  have hfr := elaborateTrees_frame declMode { st with logs := [] } []
    (propagate { st with logs := [] } md).body
    (propagate { st with logs := [] } md).postOk
  have hst := elaborateTrees_static declMode { st with logs := [] } []
    (propagate { st with logs := [] } md).body
    (propagate { st with logs := [] } md).postOk rfl
  have hid := (propagate_fields { st with logs := [] } md).1
  by_cases hdup : ((elaborateTrees declMode { st with logs := [] } []
      (propagate { st with logs := [] } md).body
      (propagate { st with logs := [] } md).postOk).st.decls.find? fun e =>
        e.1 = (propagate { st with logs := [] } md).id).isSome
  · exfalso
    have hne : ∀ l : List Err, l ++ [Err.duplicateDecl] ≠ [] := by
      intro l hx
      simpa using (List.append_eq_nil.mp hx).2
    have hlg : (declare st md).logs ≠ [] := by
      simp only [declare, hdup, if_true]
      split
      · exact hne _
      · split <;> exact hne _
    exact hlg hs
  · have hdup' : ((elaborateTrees declMode { st with logs := [] } []
        (propagate { st with logs := [] } md).body
        (propagate { st with logs := [] } md).postOk).st.decls.find?
          fun e => e.1 = (propagate { st with logs := [] } md).id).isSome =
        false := by
      cases hx : ((elaborateTrees declMode { st with logs := [] } []
          (propagate { st with logs := [] } md).body
          (propagate { st with logs := [] } md).postOk).st.decls.find?
            fun e => e.1 = (propagate { st with logs := [] } md).id).isSome
      · rfl
      · exact absurd hx hdup
    by_cases herr : (elaborateTrees declMode { st with logs := [] } []
        (propagate { st with logs := [] } md).body
        (propagate { st with logs := [] } md).postOk).st.err
    · exfalso
      have hlg : (declare st md).logs ≠ [] := by
        simp only [declare, hdup', Bool.false_eq_true, if_false]
        rw [if_pos herr]
        exact (err_true_iff _).mp herr
      exact hlg hs
    · have herr' : (elaborateTrees declMode { st with logs := [] } []
          (propagate { st with logs := [] } md).body
          (propagate { st with logs := [] } md).postOk).st.err = false := by
        simpa using herr
      have hdecls : (elaborateTrees declMode { st with logs := [] } []
          (propagate { st with logs := [] } md).body
          (propagate { st with logs := [] } md).postOk).st.decls =
          st.decls := hfr.decls
      refine ⟨?_, ?_, ?_, ?_, ?_⟩
      · simp only [declare, hdup', Bool.false_eq_true, if_false, herr']
        split <;> simp [hdecls, hid]
      · have := hdup'
        rw [hdecls, hid] at this
        cases hx : (st.decls.find? fun e => e.1 = md.id) with
        | none => rfl
        | some v => rw [hx] at this; simp at this
      · simp only [declare, hdup', Bool.false_eq_true, if_false, herr']
        split <;> exact hfr.freed
      · simp only [declare, hdup', Bool.false_eq_true, if_false, herr']
        split <;> exact hfr.elabsC
      · simp only [declare, hdup', Bool.false_eq_true, if_false, herr']
        split <;> exact hst.1

/-! ### The claims about `eval` and `declare` -/

/-- Claim C1: after `eval` returns (on any run free of undefined behavior),
the elaborated-instance table's key set and the root elaborated instance's
item-list length are exactly as before the call when an error diagnostic
was recorded, and on success the key set has the old keys as a prefix and
the root item list reflects the merged item (grown by one in the
incremental case, freshly established in the root case); the pending batch
is resolved either way, so no third, partial state is observable. -/
theorem eval_atomic (st : PState) (mi : ModuleItem)
    (hP : st.elabsP = [])
    (hR : (st.rootEitr.all fun k =>
      (st.elabsC.find? fun e => e.1 = k).isSome) = true)
    (hub : (eval st mi).ub = false) :
    ((eval st mi).err = true →
        keys (eval st mi) = keys st ∧ rootLen (eval st mi) = rootLen st ∧
          (eval st mi).elabsP = [])
    ∧ ((eval st mi).err = false →
        (keys (eval st mi)).take (keys st).length = keys st ∧
          (eval st mi).elabsP = [] ∧
          (st.elabsC = [] → (rootLen (eval st mi)).isSome = true) ∧
          (st.elabsC ≠ [] →
            rootLen (eval st mi) = (rootLen st).map fun n => n + 1)) := by
  by_cases hC : st.elabsC = []
  · rw [eval_dispatch_root st mi hC hP] at hub ⊢
    have h := eval_root_spec { st with logs := [] } mi hC hP rfl hub
    refine ⟨fun ht => ?_, fun hf => ?_⟩
    · obtain ⟨k1, k2, k3, _⟩ := h.1 ht
      exact ⟨k1, k2, k3⟩
    · obtain ⟨k1, k2, k3⟩ := h.2 hf
      exact ⟨k1, k2, fun _ => k3, fun hne => absurd hC hne⟩
  · cases hE : st.rootEitr with
    | none =>
        rw [eval_dispatch_item st mi hC hP] at hub
        rw [eval_item_none { st with logs := [] } mi hE] at hub
        simp at hub
    | some rk =>
        rw [eval_dispatch_item st mi hC hP] at hub ⊢
        have hfind : (st.elabsC.find? fun e => e.1 = rk).isSome := by
          rw [hE] at hR
          exact hR
        have h := eval_item_spec { st with logs := [] } mi rk hP hE hfind rfl
        refine ⟨fun ht => ?_, fun hf => ?_⟩
        · obtain ⟨k1, k2, k3, _, _⟩ := h.1 ht
          exact ⟨k1, k2, k3⟩
        · obtain ⟨k1, k2, k3⟩ := h.2 hf
          exact ⟨k1, k2, fun he => absurd he hC, fun _ => k3⟩

/-- A registered module declaration used by several witnesses. -/
def mdM : ModuleDeclaration := ⟨["M"], false, .nil, true⟩

/-- An elaborated root instance value used by several witnesses. -/
def evR : EV := ⟨true, []⟩

/-- A program state with one declaration and an elaborated root. -/
def stRoot : PState :=
  ⟨[(["M"], mdM)], [(["m"], evR)], [], some ["M"], some ["m"],
    some ⟨["M"], "m", false, true⟩, [], 0, [], false⟩

/-- A module item whose pre-elaboration check fails. -/
def miFail : ModuleItem := .minst ⟨["X"], "x", false, false⟩ .nil true

theorem eval_atomic_w :
    stRoot.elabsP = [] ∧
      (stRoot.rootEitr.all fun k =>
        (stRoot.elabsC.find? fun e => e.1 = k).isSome) = true ∧
      (eval stRoot miFail).ub = false ∧
      (((eval stRoot miFail).err = true →
          keys (eval stRoot miFail) = keys stRoot ∧
            rootLen (eval stRoot miFail) = rootLen stRoot ∧
            (eval stRoot miFail).elabsP = [])
        ∧ ((eval stRoot miFail).err = false →
          (keys (eval stRoot miFail)).take (keys stRoot).length =
              keys stRoot ∧
            (eval stRoot miFail).elabsP = [] ∧
            (stRoot.elabsC = [] →
              (rootLen (eval stRoot miFail)).isSome = true) ∧
            (stRoot.elabsC ≠ [] →
              rootLen (eval stRoot miFail) =
                (rootLen stRoot).map fun n => n + 1))) :=
  ⟨rfl, by decide, by decide,
   eval_atomic stRoot miFail rfl (by decide) (by decide)⟩

/-- Characterization of a `declare` call hitting the duplicate check: the
duplicate error is recorded, the input node is destroyed, and no table is
mutated. -/
theorem declare_dup_spec (s : PState) (md : ModuleDeclaration)
    (hdup : (s.decls.find? fun e => e.1 = md.id).isSome = true) :
    Err.duplicateDecl ∈ (declare s md).logs ∧
      (declare s md).decls = s.decls ∧
      (declare s md).freed = s.freed + 1 ∧
      (declare s md).elabsC = s.elabsC ∧
      (declare s md).elabsP = s.elabsP := by
  have hfr := elaborateTrees_frame declMode { s with logs := [] } []
    (propagate { s with logs := [] } md).body
    (propagate { s with logs := [] } md).postOk
  have hst := elaborateTrees_static declMode { s with logs := [] } []
    (propagate { s with logs := [] } md).body
    (propagate { s with logs := [] } md).postOk rfl
  have hid := (propagate_fields { s with logs := [] } md).1
  have hdup2 : ((elaborateTrees declMode { s with logs := [] } []
      (propagate { s with logs := [] } md).body
      (propagate { s with logs := [] } md).postOk).st.decls.find? fun e =>
        e.1 = (propagate { s with logs := [] } md).id).isSome = true := by
    rw [hfr.decls, hid]
    exact hdup
  have herr2 : (({ (elaborateTrees declMode { s with logs := [] } []
      (propagate { s with logs := [] } md).body
      (propagate { s with logs := [] } md).postOk).st with
      logs := (elaborateTrees declMode { s with logs := [] } []
        (propagate { s with logs := [] } md).body
        (propagate { s with logs := [] } md).postOk).st.logs ++
          [Err.duplicateDecl] } : PState).err) = true := by
    rw [err_true_iff]
    intro hx
    simpa using (List.append_eq_nil.mp hx).2
  have hshape : declare s md =
      { (elaborateTrees declMode { s with logs := [] } []
          (propagate { s with logs := [] } md).body
          (propagate { s with logs := [] } md).postOk).st with
        logs := (elaborateTrees declMode { s with logs := [] } []
          (propagate { s with logs := [] } md).body
          (propagate { s with logs := [] } md).postOk).st.logs ++
            [Err.duplicateDecl],
        freed := (elaborateTrees declMode { s with logs := [] } []
          (propagate { s with logs := [] } md).body
          (propagate { s with logs := [] } md).postOk).st.freed + 1 } := by
    simp only [declare, hdup2, if_true]
    rw [if_pos herr2]
  rw [hshape]
  exact ⟨by simp, hfr.decls, congrArg (· + 1) hfr.freed, hfr.elabsC, hst.1⟩

/-- Claim C2: for every pair of `declare` calls whose module declarations
share a module-type identifier (the first having succeeded), the second
fails with the duplicate-declaration error, the declaration table retains
exactly one entry for that identifier, the second input node is destroyed,
and no table mutation occurs on the failing call. -/
theorem declare_duplicate_second_fails (st : PState)
    (md1 md2 : ModuleDeclaration) (hs1 : (declare st md1).logs = [])
    (hid : md2.id = md1.id) :
    Err.duplicateDecl ∈ (declare (declare st md1) md2).logs ∧
      (declare (declare st md1) md2).decls = (declare st md1).decls ∧
      ((declare (declare st md1) md2).decls.countP fun e =>
        e.1 = md1.id) = 1 ∧
      (declare (declare st md1) md2).freed = (declare st md1).freed + 1 ∧
      (declare (declare st md1) md2).elabsC = (declare st md1).elabsC ∧
      (declare (declare st md1) md2).elabsP = (declare st md1).elabsP := by
  obtain ⟨hd1, hfresh, _, _, _⟩ := declare_success st md1 hs1
  have hdup : ((declare st md1).decls.find? fun e =>
      e.1 = md2.id).isSome = true := by
    rw [hd1, hid]
    refine List.find?_isSome.mpr
      ⟨(md1.id, propagate { st with logs := [] } md1), ?_, by simp⟩
    exact List.mem_append_right _ (by simp)
  obtain ⟨c1, c2, c3, c4, c5⟩ := declare_dup_spec (declare st md1) md2 hdup
  refine ⟨c1, c2, ?_, c3, c4, c5⟩
  rw [c2, hd1, List.countP_append]
  have hz : (st.decls.countP fun e => decide (e.1 = md1.id)) = 0 :=
    List.countP_eq_zero.mpr (by
      intro a ha
      have := List.find?_eq_none.mp hfresh a ha
      simpa using this)
  simp [hz]

theorem declare_duplicate_second_fails_w :
    (declare progEmpty mdM).logs = [] ∧
      mdM.id = mdM.id ∧
      (Err.duplicateDecl ∈ (declare (declare progEmpty mdM) mdM).logs ∧
        (declare (declare progEmpty mdM) mdM).decls =
          (declare progEmpty mdM).decls ∧
        ((declare (declare progEmpty mdM) mdM).decls.countP fun e =>
          e.1 = mdM.id) = 1 ∧
        (declare (declare progEmpty mdM) mdM).freed =
          (declare progEmpty mdM).freed + 1 ∧
        (declare (declare progEmpty mdM) mdM).elabsC =
          (declare progEmpty mdM).elabsC ∧
        (declare (declare progEmpty mdM) mdM).elabsP =
          (declare progEmpty mdM).elabsP) :=
  ⟨by decide, rfl, declare_duplicate_second_fails progEmpty mdM mdM
    (by decide) rfl⟩

/-- Whether `eval_root`'s guard rejects the item: it is not a module
instantiation, or its module-type identifier differs from the given
root-declaration key. -/
def rootMismatch : ModuleItem → Path → Bool
  | .mother _ _, _ => true
  | .minst dd _ _, d => decide (dd.mid ≠ d)

/-- Claim C3: when no elaborated root instance exists yet and the item is
not an instantiation of the first-ever registered declaration, `eval`
fails with the missing-root error, the elaborated-instance table stays
empty (the checkpoint is undone), and the item is destroyed. -/
theorem eval_root_missing_decl (st : PState) (mi : ModuleItem) (d : Path)
    (hC : st.elabsC = []) (hP : st.elabsP = []) (hD : st.rootDitr = some d)
    (hm : rootMismatch mi d = true) :
    (eval st mi).logs = [Err.missingRoot] ∧ (eval st mi).elabsC = [] ∧
      (eval st mi).elabsP = [] ∧ (eval st mi).freed = st.freed + 1 ∧
      (eval st mi).ub = st.ub := by
  rw [eval_dispatch_root st mi hC hP]
  cases mi with
  | mother ts p =>
      rw [eval_root_mother]
      exact ⟨rfl, hC, rfl, rfl, rfl⟩
  | minst dd cs p =>
      have hne : dd.mid ≠ d := by simpa [rootMismatch] using hm
      rw [eval_root_mismatch { st with logs := [] } dd cs p d hD hne]
      exact ⟨rfl, hC, rfl, rfl, rfl⟩

/-- A state holding one declaration but no elaborated instances. -/
def stDecl : PState :=
  ⟨[(["M"], mdM)], [], [], some ["M"], none, none, [], 0, [], false⟩

theorem eval_root_missing_decl_w :
    stDecl.elabsC = [] ∧ stDecl.elabsP = [] ∧
      stDecl.rootDitr = some ["M"] ∧
      rootMismatch (ModuleItem.mother .nil true) ["M"] = true ∧
      ((eval stDecl (ModuleItem.mother .nil true)).logs =
          [Err.missingRoot] ∧
        (eval stDecl (ModuleItem.mother .nil true)).elabsC = [] ∧
        (eval stDecl (ModuleItem.mother .nil true)).elabsP = [] ∧
        (eval stDecl (ModuleItem.mother .nil true)).freed =
          stDecl.freed + 1 ∧
        (eval stDecl (ModuleItem.mother .nil true)).ub = stDecl.ub) :=
  ⟨rfl, rfl, rfl, by decide,
   eval_root_missing_decl stDecl (ModuleItem.mother .nil true) ["M"] rfl rfl
     rfl (by decide)⟩

/-- Claim C7 counterexample: a failing incremental `eval` into an existing
root records an error, restores the root item-list length — and destroys
the purged item (`freed` grows by one), contradicting the claim that the
item node is not destroyed. -/
theorem eval_item_destroys_cex :
    (eval stRoot miFail).err = true ∧
      rootLen (eval stRoot miFail) = rootLen stRoot ∧
      (eval stRoot miFail).freed = stRoot.freed + 1 := by
  exact ⟨by decide, by decide, by decide⟩

/-- Claim C7 (amended): when an incremental `eval` of an item into an
existing root fails, the appended item is removed from the root
elaborated instance's item list (restoring its prior length), its stale
references are invalidated (resolution, scope navigation, and the
whole-hierarchy module-summary invalidation), the table keys are restored
— and the item node IS destroyed by the purge, as the source comment
"Delete the module item" states. -/
theorem eval_item_failure_reverts (st : PState) (mi : ModuleItem) (rk : Path)
    (hC : st.elabsC ≠ []) (hP : st.elabsP = [])
    (hE : st.rootEitr = some rk)
    (hfind : (st.elabsC.find? fun e => e.1 = rk).isSome)
    (herr : (eval st mi).err = true) :
    rootLen (eval st mi) = rootLen st ∧ keys (eval st mi) = keys st ∧
      (eval st mi).freed = st.freed + 1 ∧
      (eval st mi).invs =
        st.invs ++ [InvEv.resolveItem, InvEv.navScope, InvEv.modInfoAll] := by
  rw [eval_dispatch_item st mi hC hP] at herr ⊢
  have h := eval_item_spec { st with logs := [] } mi rk hP hE hfind rfl
  obtain ⟨k1, k2, k3, k4, k5⟩ := h.1 herr
  exact ⟨k2, k1, k4, k5⟩

theorem eval_item_failure_reverts_w :
    stRoot.elabsC ≠ [] ∧ stRoot.elabsP = [] ∧
      stRoot.rootEitr = some ["m"] ∧
      (stRoot.elabsC.find? fun e => e.1 = ["m"]).isSome = true ∧
      (eval stRoot miFail).err = true ∧
      (rootLen (eval stRoot miFail) = rootLen stRoot ∧
        keys (eval stRoot miFail) = keys stRoot ∧
        (eval stRoot miFail).freed = stRoot.freed + 1 ∧
        (eval stRoot miFail).invs = stRoot.invs ++
          [InvEv.resolveItem, InvEv.navScope, InvEv.modInfoAll]) :=
  ⟨by decide, rfl, rfl, by decide, by decide,
   eval_item_failure_reverts stRoot miFail ["m"] (by decide) rfl rfl
     (by decide) (by decide)⟩

/-- A minimal declaration with an empty attribute set (the default when the
source text carries none). -/
def md9 : ModuleDeclaration := ⟨["M"], true, .nil, true⟩

/-- Claim C9: `declare_and_instantiate` on a minimal declaration `M`
registers it successfully, but evaluating the synthesized default
instantiation (lower-cased instance name, empty attributes) dereferences
the null `root_inst_` pointer at the attribute-propagation branch of the
instantiation pass (line 209) — the spec's expected outcome (one
elaborated instance keyed by the lower-cased name) is unreachable because
the synthesized instantiation always has empty attributes while
`root_inst_` is only assigned after elaboration succeeds. -/
theorem decl_and_inst_null_deref :
    (declare progEmpty md9).err = false ∧
      (declare_and_instantiate progEmpty md9 true true).ub = true := by
  exact ⟨by decide, by decide⟩

/-- Claim C10: the root-evaluation guard is only well-defined when at least
one declaration has been registered.  When the item is a module
instantiation and the declaration registry is empty, the guard
dereferences the end iterator (`root_decl()->first`) before any
missing-root error can be reported — undefined behavior; with a
registered root declaration, the same guard fails cleanly with the
missing-root error and no undefined behavior. -/
theorem eval_root_guard_requires_decl (st : PState) (mi : ModuleItem)
    (hC : st.elabsC = []) (hP : st.elabsP = []) (hub : st.ub = false) :
    (isInstItem mi = true → st.rootDitr = none → (eval st mi).ub = true)
    ∧ (st.rootDitr.isSome = true →
        rootMismatch mi (st.rootDitr.getD []) = true →
        (eval st mi).ub = false ∧ (eval st mi).logs = [Err.missingRoot]) := by
  constructor
  · intro hinst hnone
    rw [eval_dispatch_root st mi hC hP]
    cases mi with
    | mother ts p => simp [isInstItem] at hinst
    | minst d cs p =>
        rw [eval_root_none { st with logs := [] } d cs p hnone]
  · intro hsome hm
    cases hD : st.rootDitr with
    | none => rw [hD] at hsome; simp at hsome
    | some rd =>
        rw [eval_dispatch_root st mi hC hP]
        have hm' : rootMismatch mi rd = true := by rw [hD] at hm; exact hm
        cases mi with
        | mother ts p =>
            rw [eval_root_mother]
            exact ⟨hub, rfl⟩
        | minst dd cs p =>
            have hne : dd.mid ≠ rd := by simpa [rootMismatch] using hm'
            rw [eval_root_mismatch { st with logs := [] } dd cs p rd hD hne]
            exact ⟨hub, rfl⟩

theorem eval_root_guard_requires_decl_w :
    progEmpty.elabsC = [] ∧ progEmpty.elabsP = [] ∧ progEmpty.ub = false ∧
      ((isInstItem (ModuleItem.minst ⟨["M"], "m", false, true⟩ .nil true) =
          true → progEmpty.rootDitr = none →
          (eval progEmpty
            (ModuleItem.minst ⟨["M"], "m", false, true⟩ .nil true)).ub = true)
        ∧ (progEmpty.rootDitr.isSome = true →
            rootMismatch (ModuleItem.minst ⟨["M"], "m", false, true⟩ .nil
              true) (progEmpty.rootDitr.getD []) = true →
            (eval progEmpty (ModuleItem.minst ⟨["M"], "m", false, true⟩ .nil
              true)).ub = false ∧
            (eval progEmpty (ModuleItem.minst ⟨["M"], "m", false, true⟩ .nil
              true)).logs = [Err.missingRoot])) :=
  ⟨rfl, rfl, rfl,
   eval_root_guard_requires_decl progEmpty
     (ModuleItem.minst ⟨["M"], "m", false, true⟩ .nil true) rfl rfl rfl⟩

/-! ### The hierarchy transformer: `inline_all` / `outline_all`

The `Inline` collaborator is not part of the shown source.  Modelled from
the spec: `inline_source` substitutes the child bodies into the parent in
place (each instantiation item becomes its inlined form), `outline_source`
is the inverse in-place transformation, and `can_inline` is a stable
predicate of the declaration.  The elaborated-instance table is modelled
as a partial map from full hierarchical identifiers; the recursion
consults the table for each child's subtree (`p ++ [c]` being the child's
full identifier) and is given an explicit recursion budget, mirroring the
source's reliance on the hierarchy invariant for termination. -/

/-- An item of an elaborated instance as the transformer sees it: a child
instantiation, its inlined form, or anything else. -/
inductive MItem where
  | inst : String → MItem
  | inlinedInst : String → MItem
  | other : MItem
deriving DecidableEq, Repr

/-- An elaborated instance value for the transformer: the `can_inline`
verdict and the item list. -/
structure MD where
  eligible : Bool
  items : List MItem
deriving DecidableEq, Repr

/-- The elaborated-instance table as a partial map over full hierarchical
identifiers. -/
abbrev Table := Path → Option MD

/-- The module summary's child map: the instance names of the (un-inlined)
child instantiations. -/
def children (md : MD) : List String :=
  md.items.filterMap fun it =>
    match it with
    | .inst iid => some iid
    | _ => none

/-- Whether the instance is in its fully outlined (hierarchical) form. -/
def fullyOutlined (md : MD) : Bool :=
  md.items.all fun it =>
    match it with
    | .inlinedInst _ => false
    | _ => true

/-- Modelled from the spec: `Inline().inline_source` flattens every child
instantiation into the parent in place. -/
def inline_source (md : MD) : MD :=
  { md with items := md.items.map fun it =>
      match it with
      | .inst i => .inlinedInst i
      | x => x }

/-- Modelled from the spec: `Inline().outline_source` restores the parent to
its pre-inlined, hierarchical form. -/
def outline_source (md : MD) : MD :=
  { md with items := md.items.map fun it =>
      match it with
      | .inlinedInst i => .inst i
      | x => x }

/-- In-place update of the subtree owned by one table entry (the C++ code
mutates the pointed-to object; the table's key set is untouched). -/
def updVal (t : Table) (p : Path) (f : MD → MD) : Table :=
  fun k => if k = p then (t p).map f else t k

/-- The child-recursion loop shared by `inline_all` and `outline_all`:
visit each child's full identifier in order. -/
def kidsFold (g : Table → Path → Table) (t : Table) (p : Path)
    (cs : List String) : Table :=
  cs.foldl (fun acc c => g acc (p ++ [c])) t

/-- `Program::inline_all(ModuleDeclaration*)` (lines 351-362): stop unless
the instance can be inlined; recurse into every child first (bottom-up),
then rewrite the instance in place.  A child identifier that misses the
table (the asserted invariant) is a no-op.  Structurally recursive on the
explicit budget. -/
def inlF : Nat → Table → Path → Table
  | 0, t, _ => t
  | f + 1, t, p =>
      match t p with
      | none => t
      | some md =>
          if md.eligible then
            updVal (kidsFold (inlF f) t p (children md)) p inline_source
          else t

/-- `Program::outline_all(ModuleDeclaration*)` (lines 364-375): eligibility
gated the same way; rewrite the instance in place first (top-down), then
recurse into the children of the restored form. -/
def outF : Nat → Table → Path → Table
  | 0, t, _ => t
  | f + 1, t, p =>
      match t p with
      | none => t
      | some md =>
          if md.eligible then
            kidsFold (outF f) (updVal t p outline_source) p
              (children (outline_source md))
          else t

/-- `inline_all` with an explicit recursion budget. -/
def inline_all (f : Nat) (t : Table) (root : Path) : Table := inlF f t root

/-- `outline_all` with an explicit recursion budget. -/
def outline_all (f : Nat) (t : Table) (root : Path) : Table := outF f t root

/-- `k` lies in the subtree rooted at `q` (its full identifier extends
`q`). -/
def Under (q k : Path) : Prop := ∃ s, k = q ++ s

theorem Under.self (q : Path) : Under q q := ⟨[], by simp⟩

theorem Under.child (p : Path) (c : String) : Under p (p ++ [c]) := ⟨[c], rfl⟩

theorem Under.chain {a b c : Path} (h1 : Under a b) (h2 : Under b c) :
    Under a c := by
  obtain ⟨s1, rfl⟩ := h1
  obtain ⟨s2, rfl⟩ := h2
  exact ⟨s1 ++ s2, by simp⟩

theorem Under.of_child {p : Path} {c : String} {k : Path}
    (h : Under (p ++ [c]) k) : Under p k :=
  Under.chain (Under.child p c) h

theorem not_under_parent (p : Path) (c : String) : ¬ Under (p ++ [c]) p := by
  rintro ⟨s, hs⟩
  have := congrArg List.length hs
  simp at this

theorem ne_of_not_under {p k : Path} (h : ¬ Under p k) : k ≠ p := by
  rintro rfl
  exact h (Under.self k)

theorem under_child_inj {p : Path} {c c' : String} {k : Path}
    (h1 : Under (p ++ [c]) k) (h2 : Under (p ++ [c']) k) : c = c' := by
  obtain ⟨s1, hs1⟩ := h1
  obtain ⟨s2, hs2⟩ := h2
  rw [hs1] at hs2
  rw [List.append_assoc, List.append_assoc] at hs2
  have := List.append_cancel_left hs2
  simpa using (List.cons.injEq _ _ _ _ ▸ congrArg id this).1

theorem outline_inline_items : ∀ its : List MItem,
    (its.all fun it => match it with
      | MItem.inlinedInst _ => false
      | _ => true) = true →
    ((its.map fun it => match it with
      | MItem.inst i => MItem.inlinedInst i
      | x => x).map fun it => match it with
        | MItem.inlinedInst i => MItem.inst i
        | x => x) = its := by
  intro its h
  induction its with
  | nil => rfl
  | cons it rest ih =>
      simp only [List.all_cons, Bool.and_eq_true] at h
      simp only [List.map_cons]
      rw [ih h.2]
      cases it with
      | inst i => rfl
      | inlinedInst i => simp at h
      | other => rfl

theorem outline_inline (md : MD) (h : fullyOutlined md = true) :
    outline_source (inline_source md) = md := by
  obtain ⟨e, its⟩ := md
  simp only [inline_source, outline_source, MD.mk.injEq, true_and]
  exact outline_inline_items its h

theorem inline_source_eligible (md : MD) :
    (inline_source md).eligible = md.eligible := rfl

/-- The child loop leaves every entry outside the visited subtrees
untouched, provided the visitor does. -/
theorem kidsFold_frame (g : Table → Path → Table)
    (hg : ∀ t q k, ¬ Under q k → g t q k = t k) (p : Path) :
    ∀ (cs : List String) (t : Table) (k : Path),
      (∀ c ∈ cs, ¬ Under (p ++ [c]) k) → kidsFold g t p cs k = t k := by
  intro cs
  induction cs with
  | nil => intro t k _; rfl
  | cons c rest ih =>
      intro t k hk
      show kidsFold g (g t (p ++ [c])) p rest k = t k
      rw [ih (g t (p ++ [c])) k fun c' hc' => hk c' (List.mem_cons_of_mem _ hc')]
      exact hg t (p ++ [c]) k (hk c (List.mem_cons_self _ _))

/-- The child loop's result inside a visited subtree depends only on the
accumulated tables' values inside the visited subtrees. -/
theorem kidsFold_dep (g : Table → Path → Table)
    (hgf : ∀ t q k, ¬ Under q k → g t q k = t k)
    (hgd : ∀ t t' q, (∀ j, Under q j → t j = t' j) →
      ∀ k, Under q k → g t q k = g t' q k) (p : Path) :
    ∀ (cs : List String) (acc acc' : Table),
      (∀ j, (∃ c ∈ cs, Under (p ++ [c]) j) → acc j = acc' j) →
      ∀ k, (∃ c ∈ cs, Under (p ++ [c]) k) →
        kidsFold g acc p cs k = kidsFold g acc' p cs k := by
  intro cs
  induction cs with
  | nil =>
      intro acc acc' _ k hk
      obtain ⟨c, hc, _⟩ := hk
      exact absurd hc (by simp)
  | cons c rest ih =>
      intro acc acc' hagree k hk
      show kidsFold g (g acc (p ++ [c])) p rest k =
        kidsFold g (g acc' (p ++ [c])) p rest k
      have hstep : ∀ j, (∃ c2 ∈ rest, Under (p ++ [c2]) j) →
          g acc (p ++ [c]) j = g acc' (p ++ [c]) j := by
        intro j hj
        by_cases hu : Under (p ++ [c]) j
        · exact hgd acc acc' (p ++ [c])
            (fun j2 hj2 => hagree j2 ⟨c, List.mem_cons_self _ _, hj2⟩) j hu
        · rw [hgf acc (p ++ [c]) j hu, hgf acc' (p ++ [c]) j hu]
          obtain ⟨c2, hc2, hj2⟩ := hj
          exact hagree j ⟨c2, List.mem_cons_of_mem _ hc2, hj2⟩
      by_cases hrest : ∃ c2 ∈ rest, Under (p ++ [c2]) k
      · exact ih (g acc (p ++ [c])) (g acc' (p ++ [c])) hstep k hrest
      · have hkc : Under (p ++ [c]) k := by
          obtain ⟨c2, hc2, hk2⟩ := hk
          rcases List.mem_cons.mp hc2 with h1 | h1
          · rwa [h1] at hk2
          · exact absurd ⟨c2, h1, hk2⟩ hrest
        have hnr : ∀ c2 ∈ rest, ¬ Under (p ++ [c2]) k := by
          intro c2 hc2 hu
          exact hrest ⟨c2, hc2, hu⟩
        rw [kidsFold_frame g hgf p rest (g acc (p ++ [c])) k hnr,
          kidsFold_frame g hgf p rest (g acc' (p ++ [c])) k hnr]
        exact hgd acc acc' (p ++ [c])
          (fun j2 hj2 => hagree j2 ⟨c, List.mem_cons_self _ _, hj2⟩) k hkc

/-- `inline_all` leaves every entry outside the given subtree untouched. -/
theorem inlF_frame : ∀ (f : Nat) (t : Table) (p k : Path),
    ¬ Under p k → inlF f t p k = t k := by
  intro f
  induction f with
  | zero => intro t p k _; rfl
  | succ f ih =>
      intro t p k hk
      cases ht : t p with
      | none => simp [inlF, ht]
      | some md =>
          by_cases hel : md.eligible
          · simp only [inlF, ht, hel, if_true]
            have hne : k ≠ p := ne_of_not_under hk
            show (if k = p then _ else
              kidsFold (inlF f) t p (children md) k) = t k
            rw [if_neg hne]
            refine kidsFold_frame (inlF f) ih p (children md) t k ?_
            intro c _ hu
            exact hk (Under.of_child hu)
          · simp [inlF, ht, hel]

/-- `outline_all` leaves every entry outside the given subtree untouched. -/
theorem outF_frame : ∀ (f : Nat) (t : Table) (p k : Path),
    ¬ Under p k → outF f t p k = t k := by
  intro f
  induction f with
  | zero => intro t p k _; rfl
  | succ f ih =>
      intro t p k hk
      cases ht : t p with
      | none => simp [outF, ht]
      | some md =>
          by_cases hel : md.eligible
          · simp only [outF, ht, hel, if_true]
            have hne : k ≠ p := ne_of_not_under hk
            rw [kidsFold_frame (outF f) ih p (children (outline_source md))
              (updVal t p outline_source) k
              (fun c _ hu => hk (Under.of_child hu))]
            show (if k = p then _ else t k) = t k
            rw [if_neg hne]
          · simp [outF, ht, hel]

/-- Inside the given subtree, `inline_all` depends only on the table's
entries inside that subtree. -/
theorem inlF_dep : ∀ (f : Nat) (t t' : Table) (p : Path),
    (∀ j, Under p j → t j = t' j) →
    ∀ k, Under p k → inlF f t p k = inlF f t' p k := by
  intro f
  induction f with
  | zero => intro t t' p hagree k hk; exact hagree k hk
  | succ f ih =>
      intro t t' p hagree k hk
      have hp : t p = t' p := hagree p (Under.self p)
      cases ht : t p with
      | none =>
          have ht' : t' p = none := by rw [← hp]; exact ht
          rw [show inlF (f+1) t p = t from by simp [inlF, ht],
            show inlF (f+1) t' p = t' from by simp [inlF, ht']]
          exact hagree k hk
      | some md =>
          have ht' : t' p = some md := by rw [← hp]; exact ht
          by_cases hel : md.eligible
          · rw [show inlF (f+1) t p =
                updVal (kidsFold (inlF f) t p (children md)) p
                  inline_source from by simp [inlF, ht, hel],
              show inlF (f+1) t' p =
                updVal (kidsFold (inlF f) t' p (children md)) p
                  inline_source from by simp [inlF, ht', hel]]
            by_cases hkp : k = p
            · subst hkp
              simp only [updVal]
              rw [if_pos trivial, if_pos trivial]
              rw [kidsFold_frame (inlF f) (inlF_frame f) k (children md) t k
                  (fun c _ hu => not_under_parent k c hu),
                kidsFold_frame (inlF f) (inlF_frame f) k (children md) t' k
                  (fun c _ hu => not_under_parent k c hu), hp]
            · show (if k = p then _ else
                kidsFold (inlF f) t p (children md) k) =
                (if k = p then _ else
                  kidsFold (inlF f) t' p (children md) k)
              rw [if_neg hkp, if_neg hkp]
              by_cases hex : ∃ c ∈ children md, Under (p ++ [c]) k
              · exact kidsFold_dep (inlF f) (inlF_frame f) ih p (children md)
                  t t' (fun j hj => hagree j (by
                    obtain ⟨c, _, hj2⟩ := hj
                    exact Under.of_child hj2)) k hex
              · have hnu : ∀ c ∈ children md, ¬ Under (p ++ [c]) k := by
                  intro c hc hu
                  exact hex ⟨c, hc, hu⟩
                rw [kidsFold_frame (inlF f) (inlF_frame f) p (children md) t
                    k hnu,
                  kidsFold_frame (inlF f) (inlF_frame f) p (children md) t'
                    k hnu]
                exact hagree k hk
          · rw [show inlF (f+1) t p = t from by simp [inlF, ht, hel],
              show inlF (f+1) t' p = t' from by simp [inlF, ht', hel]]
            exact hagree k hk

/-- Inside the given subtree, `outline_all` depends only on the table's
entries inside that subtree. -/
theorem outF_dep : ∀ (f : Nat) (t t' : Table) (p : Path),
    (∀ j, Under p j → t j = t' j) →
    ∀ k, Under p k → outF f t p k = outF f t' p k := by
  intro f
  induction f with
  | zero => intro t t' p hagree k hk; exact hagree k hk
  | succ f ih =>
      intro t t' p hagree k hk
      have hp : t p = t' p := hagree p (Under.self p)
      cases ht : t p with
      | none =>
          have ht' : t' p = none := by rw [← hp]; exact ht
          rw [show outF (f+1) t p = t from by simp [outF, ht],
            show outF (f+1) t' p = t' from by simp [outF, ht']]
          exact hagree k hk
      | some md =>
          have ht' : t' p = some md := by rw [← hp]; exact ht
          by_cases hel : md.eligible
          · rw [show outF (f+1) t p =
                kidsFold (outF f) (updVal t p outline_source) p
                  (children (outline_source md)) from by simp [outF, ht, hel],
              show outF (f+1) t' p =
                kidsFold (outF f) (updVal t' p outline_source) p
                  (children (outline_source md)) from by
                simp [outF, ht', hel]]
            have hagree2 : ∀ j, Under p j →
                updVal t p outline_source j =
                  updVal t' p outline_source j := by
              intro j hj
              show (if j = p then (t p).map _ else t j) =
                (if j = p then (t' p).map _ else t' j)
              by_cases hjp : j = p
              · rw [if_pos hjp, if_pos hjp, hp]
              · rw [if_neg hjp, if_neg hjp]
                exact hagree j hj
            by_cases hex : ∃ c ∈ children (outline_source md),
                Under (p ++ [c]) k
            · exact kidsFold_dep (outF f) (outF_frame f) ih p
                (children (outline_source md)) _ _
                (fun j hj => hagree2 j (by
                  obtain ⟨c, _, hj2⟩ := hj
                  exact Under.of_child hj2)) k hex
            · have hnu : ∀ c ∈ children (outline_source md),
                  ¬ Under (p ++ [c]) k := by
                intro c hc hu
                exact hex ⟨c, hc, hu⟩
              rw [kidsFold_frame (outF f) (outF_frame f) p _ _ k hnu,
                kidsFold_frame (outF f) (outF_frame f) p _ _ k hnu]
              exact hagree2 k hk
          · rw [show outF (f+1) t p = t from by simp [outF, ht, hel],
              show outF (f+1) t' p = t' from by simp [outF, ht', hel]]
            exact hagree k hk

/-- The invariant `inline_all`/`outline_all` rely on: every elaborated
instance is stored fully outlined, and its child instance names are
distinct (full hierarchical identifiers are unique keys). -/
def WFT (t : Table) : Prop :=
  ∀ k md, t k = some md → fullyOutlined md = true ∧ (children md).Nodup

/-- Inner loop of the round trip: outlining a sibling list undoes inlining
the same sibling list, given the round trip at each child. -/
theorem roundtripKids (f : Nat)
    (ih : ∀ t, WFT t → ∀ p, outF f (inlF f t p) p = t)
    (t : Table) (hwf : WFT t) (p : Path) :
    ∀ (cs : List String), cs.Nodup →
      kidsFold (outF f) (kidsFold (inlF f) t p cs) p cs = t := by
  intro cs
  induction cs with
  | nil => intro _; rfl
  | cons c rest ihcs =>
      intro hnd
      have hc : c ∉ rest := (List.nodup_cons.mp hnd).1
      have hnd2 : rest.Nodup := (List.nodup_cons.mp hnd).2
      have hdisj : ∀ (j : Path), Under (p ++ [c]) j →
          ∀ c2 ∈ rest, ¬ Under (p ++ [c2]) j := by
        intro j hj c2 hc2 h2
        exact hc (by rw [show c = c2 from under_child_inj hj h2]; exact hc2)
      have hAu : ∀ j, Under (p ++ [c]) j →
          kidsFold (inlF f) (inlF f t (p ++ [c])) p rest j =
            inlF f t (p ++ [c]) j := by
        intro j hj
        exact kidsFold_frame (inlF f) (inlF_frame f) p rest _ j (hdisj j hj)
      have hroot : outF f (inlF f t (p ++ [c])) (p ++ [c]) = t :=
        ih t hwf (p ++ [c])
      have hB : outF f (kidsFold (inlF f) (inlF f t (p ++ [c])) p rest)
          (p ++ [c]) = kidsFold (inlF f) t p rest := by
        funext k
        by_cases hu : Under (p ++ [c]) k
        · have h1 : outF f
              (kidsFold (inlF f) (inlF f t (p ++ [c])) p rest)
              (p ++ [c]) k =
              outF f (inlF f t (p ++ [c])) (p ++ [c]) k :=
            outF_dep f _ _ (p ++ [c]) hAu k hu
          rw [h1, hroot,
            kidsFold_frame (inlF f) (inlF_frame f) p rest t k (hdisj k hu)]
        · rw [outF_frame f _ (p ++ [c]) k hu]
          by_cases hex : ∃ c2 ∈ rest, Under (p ++ [c2]) k
          · refine kidsFold_dep (inlF f) (inlF_frame f) (inlF_dep f) p rest
              _ _ ?_ k hex
            intro j hj
            obtain ⟨c2, hc2, hj2⟩ := hj
            refine inlF_frame f t (p ++ [c]) j ?_
            intro hcc
            rw [show c = c2 from under_child_inj hcc hj2] at hc
            exact hc hc2
          · have hnu : ∀ c2 ∈ rest, ¬ Under (p ++ [c2]) k :=
              fun c2 hc2 hu2 => hex ⟨c2, hc2, hu2⟩
            rw [kidsFold_frame (inlF f) (inlF_frame f) p rest _ k hnu,
              kidsFold_frame (inlF f) (inlF_frame f) p rest t k hnu]
            exact inlF_frame f t (p ++ [c]) k hu
      show kidsFold (outF f)
        (outF f (kidsFold (inlF f) (inlF f t (p ++ [c])) p rest) (p ++ [c]))
        p rest = t
      rw [hB]
      exact ihcs hnd2

/-- On a well-formed table, `outline_all` after `inline_all` at the same
root restores the table exactly, for any recursion budget. -/
theorem roundtrip : ∀ (f : Nat) (t : Table), WFT t →
    ∀ (p : Path), outF f (inlF f t p) p = t := by
  intro f
  induction f with
  | zero => intro t _ p; rfl
  | succ f ih =>
      intro t hwf p
      cases ht : t p with
      | none =>
          rw [show inlF (f+1) t p = t from by simp [inlF, ht],
            show outF (f+1) t p = t from by simp [outF, ht]]
      | some md =>
          by_cases hel : md.eligible
          · obtain ⟨hfo, hnd⟩ := hwf p md ht
            have h1 : inlF (f+1) t p =
                updVal (kidsFold (inlF f) t p (children md)) p
                  inline_source := by
              simp [inlF, ht, hel]
            have hAp : kidsFold (inlF f) t p (children md) p = t p :=
              kidsFold_frame (inlF f) (inlF_frame f) p (children md) t p
                (fun c _ hu => not_under_parent p c hu)
            have hT1p : (updVal (kidsFold (inlF f) t p (children md)) p
                inline_source) p = some (inline_source md) := by
              show (if p = p then _ else _) = _
              rw [if_pos rfl, hAp, ht]
              rfl
            have helI : (inline_source md).eligible = true := by
              rw [inline_source_eligible]
              exact hel
            have hoi : outline_source (inline_source md) = md :=
              outline_inline md hfo
            have h2 : outF (f+1) (updVal (kidsFold (inlF f) t p
                (children md)) p inline_source) p =
                kidsFold (outF f)
                  (updVal (updVal (kidsFold (inlF f) t p (children md)) p
                    inline_source) p outline_source) p
                  (children (outline_source (inline_source md))) := by
              simp [outF, hT1p, helI]
            have h3 : updVal (updVal (kidsFold (inlF f) t p (children md)) p
                inline_source) p outline_source =
                kidsFold (inlF f) t p (children md) := by
              funext k
              by_cases hkp : k = p
              · subst hkp
                show (if k = k then _ else _) = _
                rw [if_pos rfl, hT1p, hAp, ht]
                show some (outline_source (inline_source md)) = some md
                rw [hoi]
              · show (if k = p then _ else
                  (updVal (kidsFold (inlF f) t p (children md)) p
                    inline_source) k) = _
                rw [if_neg hkp]
                show (if k = p then _ else
                  kidsFold (inlF f) t p (children md) k) = _
                rw [if_neg hkp]
            rw [h1, h2, h3, hoi]
            exact roundtripKids f ih t hwf p (children md) hnd
          · rw [show inlF (f+1) t p = t from by simp [inlF, ht, hel],
              show outF (f+1) t p = t from by simp [outF, ht, hel]]

/-- The child loop never adds or removes table keys if its visitor does
not. -/
theorem kidsFold_support (g : Table → Path → Table)
    (hg : ∀ t q k, (g t q k).isSome = (t k).isSome) (p : Path) :
    ∀ (cs : List String) (t : Table) (k : Path),
      (kidsFold g t p cs k).isSome = (t k).isSome := by
  intro cs
  induction cs with
  | nil => intro t k; rfl
  | cons c rest ih =>
      intro t k
      show (kidsFold g (g t (p ++ [c])) p rest k).isSome = (t k).isSome
      rw [ih (g t (p ++ [c])) k]
      exact hg t (p ++ [c]) k

/-- In-place subtree rewriting never adds or removes table keys. -/
theorem updVal_support (t : Table) (p : Path) (g : MD → MD) (k : Path) :
    (updVal t p g k).isSome = (t k).isSome := by
  show (if k = p then (t p).map g else t k).isSome = (t k).isSome
  by_cases hkp : k = p
  · rw [if_pos hkp, hkp]
    cases t p <;> rfl
  · rw [if_neg hkp]

/-- `inline_all` never adds, removes, or renames a table key. -/
theorem inlF_support : ∀ (f : Nat) (t : Table) (p k : Path),
    (inlF f t p k).isSome = (t k).isSome := by
  intro f
  induction f with
  | zero => intro t p k; rfl
  | succ f ih =>
      intro t p k
      cases ht : t p with
      | none => rw [show inlF (f+1) t p = t from by simp [inlF, ht]]
      | some md =>
          by_cases hel : md.eligible
          · rw [show inlF (f+1) t p =
                updVal (kidsFold (inlF f) t p (children md)) p
                  inline_source from by simp [inlF, ht, hel]]
            rw [updVal_support, kidsFold_support (inlF f) ih p (children md)]
          · rw [show inlF (f+1) t p = t from by simp [inlF, ht, hel]]

/-- `outline_all` never adds, removes, or renames a table key. -/
theorem outF_support : ∀ (f : Nat) (t : Table) (p k : Path),
    (outF f t p k).isSome = (t k).isSome := by
  intro f
  induction f with
  | zero => intro t p k; rfl
  | succ f ih =>
      intro t p k
      cases ht : t p with
      | none => rw [show outF (f+1) t p = t from by simp [outF, ht]]
      | some md =>
          by_cases hel : md.eligible
          · rw [show outF (f+1) t p =
                kidsFold (outF f) (updVal t p outline_source) p
                  (children (outline_source md)) from by simp [outF, ht, hel]]
            rw [kidsFold_support (outF f) ih p _, updVal_support]
          · rw [show outF (f+1) t p = t from by simp [outF, ht, hel]]

/-- An elaborated-instance table given by an explicit association list of
full hierarchical identifiers. -/
def toTable (l : List (Path × MD)) : Table :=
  fun k => (l.find? fun e => decide (e.1 = k)).map Prod.snd

/-- A table built from entries that are fully outlined with distinct child
names is well formed. -/
theorem WFT_of_all (l : List (Path × MD))
    (hwf : (l.all fun e =>
      fullyOutlined e.2 && decide (children e.2).Nodup) = true) :
    WFT (toTable l) := by
  intro k md h
  unfold toTable at h
  cases hf : l.find? (fun e => decide (e.1 = k)) with
  | none => rw [hf] at h; exact Option.noConfusion h
  | some e =>
      rw [hf] at h
      have h2 : e.2 = md := Option.some.inj h
      have hmem : e ∈ l := List.mem_of_find?_eq_some hf
      have he := List.all_eq_true.mp hwf e hmem
      rw [Bool.and_eq_true, decide_eq_true_eq] at he
      rw [← h2]
      exact he

/-- The round-trip child-map mapping restoration. -/
def childMap (t : Table) (k : Path) : Option (List String) :=
  (t k).map children

/-- A two-level hierarchy: an eligible root `m` with one child instance
`a` and an unrelated item, and the eligible leaf `m.a`. -/
def tbl8 : List (Path × MD) :=
  [(["m"], ⟨true, [MItem.inst "a", MItem.other]⟩),
   (["m", "a"], ⟨true, []⟩)]

/-- Claim C8: on an elaborated hierarchy (a well-formed elaborated-instance
table whose entries are fully outlined with distinct child names) holding
at least one inline-eligible instance, `outline_all` after `inline_all` at
the same root reconstructs the child-identifier mapping the hierarchy had
before inlining (indeed the entire table), and neither operation adds,
removes, or changes any key of the table (pointwise key support is
preserved by each operation alone). -/
theorem inline_outline_roundtrip (l : List (Path × MD)) (root : Path)
    (f : Nat)
    (hwf : (l.all fun e =>
      fullyOutlined e.2 && decide (children e.2).Nodup) = true)
    (hel : (l.any fun e => e.2.eligible) = true) :
    (∀ k, childMap (outline_all f (inline_all f (toTable l) root) root) k =
      childMap (toTable l) k) ∧
    (∀ k, outline_all f (inline_all f (toTable l) root) root k =
      toTable l k) ∧
    (∀ k, (inline_all f (toTable l) root k).isSome =
      (toTable l k).isSome) ∧
    (∀ k, (outline_all f (toTable l) root k).isSome =
      (toTable l k).isSome) := by
  have hrt : outF f (inlF f (toTable l) root) root = toTable l :=
    roundtrip f (toTable l) (WFT_of_all l hwf) root
  refine ⟨?_, ?_, ?_, ?_⟩
  · intro k
    show childMap (outF f (inlF f (toTable l) root) root) k =
      childMap (toTable l) k
    rw [hrt]
  · intro k
    show outF f (inlF f (toTable l) root) root k = toTable l k
    rw [hrt]
  · intro k
    exact inlF_support f (toTable l) root k
  · intro k
    exact outF_support f (toTable l) root k

/-- Witness for C8 on the two-level hierarchy `tbl8`: the hypotheses hold
and the round trip restores both entries and preserves the key support. -/
theorem inline_outline_roundtrip_w :
    ((tbl8.all fun e =>
      fullyOutlined e.2 && decide (children e.2).Nodup) = true) ∧
    ((tbl8.any fun e => e.2.eligible) = true) ∧
    childMap (outline_all 2 (inline_all 2 (toTable tbl8) ["m"]) ["m"])
      ["m"] = childMap (toTable tbl8) ["m"] ∧
    outline_all 2 (inline_all 2 (toTable tbl8) ["m"]) ["m"] ["m", "a"] =
      toTable tbl8 ["m", "a"] ∧
    (inline_all 2 (toTable tbl8) ["m"] ["m", "a"]).isSome =
      (toTable tbl8 ["m", "a"]).isSome ∧
    (outline_all 2 (toTable tbl8) ["m"] ["m"]).isSome =
      (toTable tbl8 ["m"]).isSome := by
  have hwf : (tbl8.all fun e =>
      fullyOutlined e.2 && decide (children e.2).Nodup) = true := by decide
  have hel : (tbl8.any fun e => e.2.eligible) = true := by decide
  have h := inline_outline_roundtrip tbl8 ["m"] 2 hwf hel
  exact ⟨hwf, hel, h.1 ["m"], h.2.1 ["m", "a"], h.2.2.1 ["m", "a"],
    h.2.2.2 ["m"]⟩
